import Mathlib

set_option maxRecDepth 16000

/-!
Verification of the TPSUID7RB binary identifier codec from `src/index.ts`
(class `TPSUID7RB`): the binary header codec, the varint coder, the
base64url transport codec, the sealing/verification engine and the
generation convenience.

Modelling conventions, used throughout:
- JavaScript strings are lists of Unicode scalar values (`List Nat`).
- `Uint8Array` buffers are lists of naturals; real buffers hold values
  below 256 and the theorems carry that bound where it matters.
- JavaScript bitwise operators work on 32-bit operands: `a & 0x7f` is
  `a % 0x80`, `a << s` takes the shift count mod 32 and keeps 32 bits,
  `x >>> 0` is `% 2 ^ 32`; `BigInt` shifts in `writeU48`/`readU48` are
  exact arithmetic.
- Platform collaborators are injected as explicit parameters: the zlib
  adapter (`deflateRaw`/`inflateRaw`), the Ed25519 signer and verifier,
  the random nonce bytes and the captured `Date`.  This mirrors the
  runtime branching in the source, which resolves these providers from
  the environment.
-/

/-- Code points of a Lean string literal, used to write down concrete
JavaScript strings. -/
def str (s : String) : List Nat := s.data.map Char.toNat

/-- ECMAScript whitespace code points recognised by `String.prototype.trim`. -/
def isJsWs (c : Nat) : Bool :=
  (9 ≤ c && c ≤ 13) || c == 32 || c == 160 || c == 0x1680 ||
  (0x2000 ≤ c && c ≤ 0x200A) || c == 0x2028 || c == 0x2029 ||
  c == 0x202F || c == 0x205F || c == 0x3000 || c == 0xFEFF

/-- JavaScript `String.prototype.trim`: drop whitespace from both ends. -/
def jsTrim (l : List Nat) : List Nat :=
  ((l.dropWhile isJsWs).reverse.dropWhile isJsWs).reverse

/-- Unicode scalar values that a valid UTF-8 JavaScript string may contain. -/
def validScalar (c : Nat) : Bool := c < 0x110000 && !(0xD800 ≤ c && c < 0xE000)

/-- UTF-8 encoding of one Unicode scalar value, as `TextEncoder` emits it. -/
def utf8EncodeChar (c : Nat) : List Nat :=
  if c < 0x80 then [c]
  else if c < 0x800 then [0xC0 + c / 64, 0x80 + c % 64]
  else if c < 0x10000 then [0xE0 + c / 4096, 0x80 + c / 64 % 64, 0x80 + c % 64]
  else [0xF0 + c / 262144, 0x80 + c / 4096 % 64, 0x80 + c / 64 % 64, 0x80 + c % 64]

/-- UTF-8 encoding of a string given as code points
(`new TextEncoder().encode(tps)`). -/
def utf8Encode (s : List Nat) : List Nat := (s.map utf8EncodeChar).flatten

/-- Continuation byte test for UTF-8. -/
def isUtf8Cont (b : Nat) : Bool := 0x80 ≤ b && b < 0xC0

/-- Loop of the UTF-8 decoder.  The fuel falls by one per decoded
character, so the byte length always suffices. -/
def utf8DecodeGo : Nat → List Nat → List Nat
  | 0, _ => []
  | _ + 1, [] => []
  | fuel + 1, b :: rest =>
    if b < 0x80 then b :: utf8DecodeGo fuel rest
    else if b < 0xC2 then 0xFFFD :: utf8DecodeGo fuel rest
    else if b < 0xE0 then
      if 1 ≤ rest.length ∧ isUtf8Cont (rest.getD 0 0) = true then
        ((b - 0xC0) * 64 + (rest.getD 0 0 - 0x80)) :: utf8DecodeGo fuel (rest.drop 1)
      else 0xFFFD :: utf8DecodeGo fuel (rest.drop 1)
    else if b < 0xF0 then
      if 2 ≤ rest.length ∧ isUtf8Cont (rest.getD 0 0) = true ∧
          isUtf8Cont (rest.getD 1 0) = true then
        ((b - 0xE0) * 4096 + (rest.getD 0 0 - 0x80) * 64 + (rest.getD 1 0 - 0x80)) ::
          utf8DecodeGo fuel (rest.drop 2)
      else 0xFFFD :: utf8DecodeGo fuel (rest.drop 2)
    else if b < 0xF8 then
      if 3 ≤ rest.length ∧ isUtf8Cont (rest.getD 0 0) = true ∧
          isUtf8Cont (rest.getD 1 0) = true ∧ isUtf8Cont (rest.getD 2 0) = true then
        ((b - 0xF0) * 262144 + (rest.getD 0 0 - 0x80) * 4096 +
            (rest.getD 1 0 - 0x80) * 64 + (rest.getD 2 0 - 0x80)) ::
          utf8DecodeGo fuel (rest.drop 3)
      else 0xFFFD :: utf8DecodeGo fuel (rest.drop 3)
    else 0xFFFD :: utf8DecodeGo fuel rest

/-- UTF-8 decoding back to code points (`new TextDecoder().decode`).  The
development only applies it to valid encodings, where it inverts
`utf8Encode`; malformed input yields replacement characters U+FFFD (the
non-fatal decoder) without reproducing every resynchronisation detail of
the WHATWG algorithm. -/
def utf8Decode (l : List Nat) : List Nat := utf8DecodeGo l.length l

/-- Base64url alphabet: the standard base64 alphabet emitted by
`Buffer.toString` with the `+` to `-` and `/` to `_` replacements applied. -/
def b64Chr (v : Nat) : Nat :=
  if v < 26 then 65 + v
  else if v < 52 then 97 + (v - 26)
  else if v < 62 then 48 + (v - 52)
  else if v = 62 then 45
  else 95

/-- Inverse alphabet lookup; characters outside the alphabet are `none`
(the forgiving Node decoder skips them). -/
def b64Val (c : Nat) : Option Nat :=
  if 65 ≤ c && c ≤ 90 then some (c - 65)
  else if 97 ≤ c && c ≤ 122 then some (c - 97 + 26)
  else if 48 ≤ c && c ≤ 57 then some (c - 48 + 52)
  else if c = 45 then some 62
  else if c = 95 then some 63
  else none

/-- Base64url encoding without padding (`base64UrlEncode` in the source:
`Buffer.toString` in base64 followed by the URL-safe replacements and
stripping of the `=` padding). -/
def base64UrlEncode : List Nat → List Nat
  | [] => []
  | [a] => [b64Chr (a / 4), b64Chr (a % 4 * 16)]
  | [a, b] => [b64Chr (a / 4), b64Chr (a % 4 * 16 + b / 16), b64Chr (b % 16 * 4)]
  | a :: b :: c :: rest =>
    b64Chr (a / 4) :: b64Chr (a % 4 * 16 + b / 16) :: b64Chr (b % 16 * 4 + c / 64) ::
      b64Chr (c % 64) :: base64UrlEncode rest

/-- Regrouping of 6-bit values into bytes, mirroring the forgiving Node
base64 decoder after padding: a trailing group of fewer than two values
contributes no byte. -/
def b64Assemble : List Nat → List Nat
  | v1 :: v2 :: v3 :: v4 :: rest =>
    (v1 * 4 + v2 / 16) :: (v2 % 16 * 16 + v3 / 4) :: (v3 % 4 * 64 + v4) :: b64Assemble rest
  | [v1, v2, v3] => [v1 * 4 + v2 / 16, v2 % 16 * 16 + v3 / 4]
  | [v1, v2] => [v1 * 4 + v2 / 16]
  | _ => []

/-- Base64url decoding (`base64UrlDecode` in the source: add padding, map
the URL-safe characters back and run the Node decoder). -/
def base64UrlDecode (l : List Nat) : List Nat := b64Assemble (l.filterMap b64Val)

deriving instance DecidableEq for Except

namespace TPSUID7RB

/-- Error values: one constructor for each distinct `throw new Error`
message reachable in the modelled code paths. -/
inductive Err where
  /-- Message: epochMs must be a non-negative integer. -/
  | epochNotNonNegInt
  /-- Message: epochMs exceeds 48-bit range. -/
  | epochExceeds48
  /-- Message: TPSUID7RB: too short. -/
  | tooShort
  /-- Message: TPSUID7RB: bad magic. -/
  | badMagic
  /-- Message: TPSUID7RB: unsupported version (with the version byte). -/
  | unsupportedVersion (v : Nat)
  /-- Message: TPSUID7RB: u48 not safe integer. -/
  | u48NotSafe
  /-- Message: TPSUID7RB: length overflow. -/
  | lengthOverflow
  /-- Message: uvarint overflow (ran past the end of the buffer). -/
  | uvarintOverflow
  /-- Message: uvarint too large (terminal group at the tenth position above 1). -/
  | uvarintTooLarge
  /-- Message: uvarint too long (more than ten groups). -/
  | uvarintTooLong
  /-- Message: TPSUID7RB: missing prefix. -/
  | prefixMissing
  /-- Message: TPS: unrecognized format. -/
  | tpsBadFormat
  /-- Message: TPS: only T:greg parsing is supported. -/
  | tpsNotGreg
  /-- Message: TPS: missing year component. -/
  | tpsNoYear
  /-- Message: TPS: failed to compute epochMs. -/
  | tpsEpochNaN
  /-- Message: epochMs must be a valid 48-bit non-negative integer (from seal). -/
  | sealEpochInvalid
  /-- Message: TPSUID7RB: not a sealed UID. -/
  | notSealed
  /-- Message: TPSUID7RB: length overflow (truncated). -/
  | truncated
  /-- Message: TPSUID7RB: missing signature data. -/
  | missingSignatureData
  /-- Message: TPSUID7RB: unsupported seal type (with the type byte). -/
  | unsupportedSealType (t : Nat)
  /-- Message: TPSUID7RB: invalid Ed25519 signature length (with the length). -/
  | badSignatureLength (n : Nat)
  /-- Message: TPSUID7RB: signature verification failed. -/
  | signatureInvalid
  deriving DecidableEq, Repr

/-- Decoded record (`TPSUID7RBDecodeResult`); the constant string field
`version` of the source record is omitted. -/
structure DecodeResult where
  epochMs : Nat
  compressed : Bool
  nonce : Nat
  tps : List Nat
  deriving DecidableEq, Repr

/-- Magic bytes spelling TPU7. -/
def MAGIC : List Nat := [0x54, 0x50, 0x55, 0x37]

/-- Version byte. -/
def VER : Nat := 0x01

/-- Literal prefix of the text transport form. -/
def PREFIX : List Nat := str "tpsuid7rb_"

/-- Big-endian 48-bit write (`writeU48`); the BigInt shifts and masks
become division and remainder. -/
def writeU48 (v : Nat) : List Nat :=
  [v / 2 ^ 40 % 256, v / 2 ^ 32 % 256, v / 2 ^ 24 % 256,
   v / 2 ^ 16 % 256, v / 2 ^ 8 % 256, v % 256]

/-- Big-endian 48-bit read (`readU48`), including the
`Number.isSafeInteger` guard on the recombined value. -/
def readU48 (bytes : List Nat) (off : Nat) : Except Err Nat :=
  let v := bytes.getD off 0 * 2 ^ 40 + bytes.getD (off + 1) 0 * 2 ^ 32 +
    bytes.getD (off + 2) 0 * 2 ^ 24 + bytes.getD (off + 3) 0 * 2 ^ 16 +
    bytes.getD (off + 4) 0 * 2 ^ 8 + bytes.getD (off + 5) 0
  if v ≤ 2 ^ 53 - 1 then .ok v else .error .u48NotSafe

/-- Loop of `uvarintEncode`.  The fuel only bounds the structural
recursion; five groups always suffice for the 32-bit-truncated argument,
so the fuel never runs out. -/
def uvarintEncodeGo : Nat → Nat → List Nat
  | 0, x => [x]
  | fuel + 1, x =>
    if x ≥ 0x80 then (x % 0x80 + 0x80) :: uvarintEncodeGo fuel (x / 0x80)
    else [x]

/-- LEB128 encoder (`uvarintEncode`): the source coerces with `n >>> 0`,
truncating to 32 bits, before emitting 7-bit groups. -/
def uvarintEncode (n : Nat) : List Nat := uvarintEncodeGo 5 (n % 2 ^ 32)

/-- JavaScript `v << s` inside `x |= b << s`: the shift count is taken
mod 32 and the result keeps 32 bits. -/
def shl32 (v s : Nat) : Nat := (v <<< (s % 32)) % 2 ^ 32

/-- Loop of `uvarintDecode`: `x` is the accumulator, `s` the shift and
`i` the byte index.  The fuel only bounds the structural recursion and
cannot run out before the `i > 10` guard fires. -/
def uvarintDecodeGo (bytes : List Nat) (off : Nat) :
    Nat → Nat → Nat → Nat → Except Err (Nat × Nat)
  | 0, _, _, _ => .error .uvarintTooLong
  | fuel + 1, x, s, i =>
    if off + i ≥ bytes.length then .error .uvarintOverflow
    else
      let b := bytes.getD (off + i) 0
      if b < 0x80 then
        if i > 9 ∨ (i = 9 ∧ b > 1) then .error .uvarintTooLarge
        else .ok ((x ||| shl32 b s) % 2 ^ 32, i + 1)
      else
        let x2 := x ||| shl32 (b % 0x80) s
        if i + 1 > 10 then .error .uvarintTooLong
        else uvarintDecodeGo bytes off fuel x2 (s + 7) (i + 1)

/-- LEB128 decoder (`uvarintDecode`), returning the value and the number
of bytes read. -/
def uvarintDecode (bytes : List Nat) (off : Nat) : Except Err (Nat × Nat) :=
  uvarintDecodeGo bytes off 11 0 0 0

/-- Digit test for the regex class of decimal digits. -/
def isDigitCp (c : Nat) : Bool := 48 ≤ c && c ≤ 57

/-- Captured digits at one position: a greedy run of digits, optionally
bounded (the counted quantifiers of the source regexes). -/
def parseDigits (maxD : Option Nat) (l : List Nat) : List Nat :=
  match maxD with
  | none => l.takeWhile isDigitCp
  | some k => (l.takeWhile isDigitCp).take k

/-- Value of a digit string, as `parseInt(s, 10)` on an all-digit capture. -/
def digitsToNat (ds : List Nat) : Nat := ds.foldl (fun a c => a * 10 + (c - 48)) 0

/-- One attempted regex match at the current position: a literal dot,
the tag character, an optional minus when the pattern allows it, then at
least one digit (greedily up to the bound). -/
def tagMatchAt (tag : Nat) (allowNeg : Bool) (maxD : Option Nat) (l : List Nat) :
    Option Int :=
  match l with
  | 46 :: t :: r2 =>
    if t = tag then
      let negSplit : Bool × List Nat :=
        if allowNeg then
          match r2 with
          | 45 :: r3 => (true, r3)
          | _ => (false, r2)
        else (false, r2)
      let ds := parseDigits maxD negSplit.2
      if ds.isEmpty then none
      else some (if negSplit.1 then -(digitsToNat ds : Int) else (digitsToNat ds : Int))
    else none
  | _ => none

/-- First match of a `\.tag(digits)` pattern in the string: the scan that
`String.prototype.match` performs over every start position. -/
def findNumTag (tag : Nat) (allowNeg : Bool) (maxD : Option Nat) :
    List Nat → Option Int
  | [] => none
  | c :: rest =>
    match tagMatchAt tag allowNeg maxD (c :: rest) with
    | some v => some v
    | none => findNumTag tag allowNeg maxD rest

/-- Days from the civil epoch 1970-01-01 for a proleptic Gregorian date
with month in 1..12, the standard era-based algorithm realising the
ECMAScript MakeDay computation. -/
def daysFromCivil (y m d : Int) : Int :=
  let y2 := if m ≤ 2 then y - 1 else y
  let era := y2.fdiv 400
  let yoe := y2 - era * 400
  let mp := (m + 9).emod 12
  let doy := (153 * mp + 2).fdiv 5 + (d - 1)
  let doe := yoe * 365 + yoe.fdiv 4 - yoe.fdiv 100 + doy
  era * 146097 + doe - 719468

/-- ECMAScript `Date.UTC(year, month, day, h, mi, s)`: the two-digit-year
rule, month overflow normalisation, MakeDay and MakeTime, and the time
clip to plus-minus 8.64e15 (`none` models NaN). -/
def jsDateUTC (year month day h mi s : Int) : Option Int :=
  let yr := if 0 ≤ year ∧ year ≤ 99 then 1900 + year else year
  let ym := yr + month.fdiv 12
  let mn := month.emod 12
  let days := daysFromCivil ym (mn + 1) day
  let t := days * 86400000 + h * 3600000 + mi * 60000 + s * 1000
  if t.natAbs ≤ 8640000000000000 then some t else none

/-- Epoch parser (`epochMsFromTPSString`): split at the first `@` or
accept a time-only string, require the `T:greg.` head, extract the time
components with the source regexes and feed them to `Date.UTC`. -/
def epochMsFromTPSString (tps : List Nat) : Except Err Int := do
  let time ←
    if tps.contains 64 then
      pure (jsTrim (tps.drop (tps.findIdx (fun c => c == 64) + 1)))
    else if (str "T:").isPrefixOf tps then pure tps
    else throw Err.tpsBadFormat
  if !((str "T:greg.").isPrefixOf time) then throw Err.tpsNotGreg
  else
    let mM := findNumTag 109 true none time
    let cM := findNumTag 99 false none time
    let yM := findNumTag 121 false (some 4) time
    let bigM := findNumTag 77 false (some 2) time
    let dM := findNumTag 100 false (some 2) time
    let hM := findNumTag 104 false (some 2) time
    let nM := findNumTag 110 false (some 2) time
    let sM := findNumTag 115 false (some 2) time
    let fullYear : Int ←
      match mM, cM, yM with
      | some mv, some cv, some yv => pure ((mv - 1) * 1000 + (cv - 1) * 100 + yv)
      | _, _, _ =>
        match yM with
        | some yv =>
          pure (if yv < 100 then (if yv ≤ 69 then 2000 + yv else 1900 + yv) else yv)
        | none => throw Err.tpsNoYear
    let month := bigM.getD 1
    let day := dM.getD 1
    let hour := hM.getD 0
    let minute := nM.getD 0
    let second := sM.getD 0
    match jsDateUTC fullYear (month - 1) day hour minute second with
    | some v => pure v
    | none => throw Err.tpsEpochNaN

/-- Resolution of the epoch option, modelling the source expression
`opts?.epochMs ?? this.epochMsFromTPSString(tps)`: an explicit epoch wins,
otherwise the epoch is parsed from the TPS string. -/
def resolveEpochMs (tps : List Nat) (optE : Option Int) : Except Err Int :=
  match optE with
  | some e => pure e
  | none => epochMsFromTPSString tps

/-- Shared header-plus-payload layout: the sequence of buffer writes done
by `encodeBinary` and by `seal` (MAGIC, VER, FLAGS, TIME, NONCE, LEN,
payload) expressed as list concatenation. -/
def binLayout (flags epoch48 : Nat) (nonceBuf payload : List Nat) : List Nat :=
  MAGIC ++ [VER, flags] ++ writeU48 epoch48 ++ nonceBuf ++
    uvarintEncode payload.length ++ payload

/-- Binary encoder (`encodeBinary`).  The zlib deflate adapter and the
four random nonce bytes are injected parameters; the two option fields
are passed explicitly.  `Number.isInteger` holds for every `Int`, so only
the sign and range guards remain. -/
def encodeBinary (deflateRaw : List Nat → List Nat) (nonceBuf : List Nat)
    (tps : List Nat) (optCompress : Option Bool) (optEpochMs : Option Int) :
    Except Err (List Nat) := do
  let compress := optCompress.getD false
  let epochMs : Int ← resolveEpochMs tps optEpochMs
  if epochMs < 0 then throw Err.epochNotNonNegInt
  else if epochMs > 0xffffffffffff then throw Err.epochExceeds48
  else
    let flags : Nat := if compress then 0x01 else 0x00
    let tpsUtf8 := utf8Encode tps
    let payload := if compress then deflateRaw tpsUtf8 else tpsUtf8
    pure (binLayout flags epochMs.toNat nonceBuf payload)

/-- Binary decoder (`decodeBinary`), with the zlib inflate adapter
injected. -/
def decodeBinary (inflateRaw : List Nat → List Nat) (bytes : List Nat) :
    Except Err DecodeResult := do
  if bytes.length < 17 then throw Err.tooShort
  else if ¬(bytes.getD 0 0 = 0x54 ∧ bytes.getD 1 0 = 0x50 ∧
      bytes.getD 2 0 = 0x55 ∧ bytes.getD 3 0 = 0x37) then throw Err.badMagic
  else
    let ver := bytes.getD 4 0
    if ver ≠ VER then throw (Err.unsupportedVersion ver)
    else
      let flags := bytes.getD 5 0
      let compressed := (flags &&& 0x01) == 0x01
      let epochMs ← readU48 bytes 6
      let nonce := (bytes.getD 12 0 <<< 24) % 2 ^ 32 + (bytes.getD 13 0 <<< 16) % 2 ^ 32 +
        (bytes.getD 14 0 <<< 8) % 2 ^ 32 + bytes.getD 15 0
      let lv ← uvarintDecode bytes 16
      let offset := 16 + lv.2
      if offset + lv.1 > bytes.length then throw Err.lengthOverflow
      else
        let payload := (bytes.drop offset).take lv.1
        let tpsUtf8 := if compressed then inflateRaw payload else payload
        pure ⟨epochMs, compressed, nonce, utf8Decode tpsUtf8⟩

/-- Transport encoder (`encodeBinaryB64`). -/
def encodeBinaryB64 (deflateRaw : List Nat → List Nat) (nonceBuf : List Nat)
    (tps : List Nat) (optCompress : Option Bool) (optEpochMs : Option Int) :
    Except Err (List Nat) :=
  (encodeBinary deflateRaw nonceBuf tps optCompress optEpochMs).map
    (fun bytes => PREFIX ++ base64UrlEncode bytes)

/-- Transport decoder (`decodeBinaryB64`): trim, check the literal
prefix, strip it, base64url-decode and delegate. -/
def decodeBinaryB64 (inflateRaw : List Nat → List Nat) (id : List Nat) :
    Except Err DecodeResult :=
  if !( PREFIX.isPrefixOf (jsTrim id)) then throw Err.prefixMissing
  else decodeBinary inflateRaw (base64UrlDecode ((jsTrim id).drop ( PREFIX.length)))

/-- Character class `[A-Za-z0-9_-]` of the validation regex. -/
def isB64UrlChr (c : Nat) : Bool :=
  (65 ≤ c && c ≤ 90) || (97 ≤ c && c ≤ 122) || (48 ≤ c && c ≤ 57) || c == 95 || c == 45

/-- Test of the anchored source regex `REGEX` on a string: the literal
prefix followed by one or more characters of the base64url class. -/
def regexTest (s : List Nat) : Bool :=
  ( PREFIX.isPrefixOf s) && !(s.drop ( PREFIX.length)).isEmpty &&
    (s.drop ( PREFIX.length)).all isB64UrlChr

/-- Shape validator (`validateBinaryB64`): the regex applied to the
trimmed input. -/
def validateBinaryB64 (id : List Nat) : Bool := regexTest (jsTrim id)

/-- Shape predicate written from the words of claim C7 (refinement
comparison): the string itself, untrimmed, matches the fixed prefix
followed by one or more base64url characters. -/
def specShapeB64 (s : List Nat) : Bool :=
  ( PREFIX.isPrefixOf s) && !(s.drop ( PREFIX.length)).isEmpty &&
    (s.drop ( PREFIX.length)).all isB64UrlChr

/-- Content that `seal` signs: the same layout as `encodeBinary` with the
seal bit (bit 1) also set in the flags byte. -/
def sealContent (deflateRaw : List Nat → List Nat) (nonceBuf tps : List Nat)
    (compress : Bool) (epoch48 : Nat) : List Nat :=
  binLayout ((if compress then 0x01 else 0x00) ||| 0x02) epoch48 nonceBuf
    (if compress then deflateRaw (utf8Encode tps) else utf8Encode tps)

/-- Sealing (`seal`): build the content with the seal bit set, sign that
exact byte sequence with the injected Ed25519 signer, and append the seal
type byte and the signature. -/
def sealToken (sign : List Nat → List Nat) (deflateRaw : List Nat → List Nat)
    (nonceBuf tps : List Nat) (optCompress : Option Bool) (optEpochMs : Option Int) :
    Except Err (List Nat) := do
  let compress := optCompress.getD false
  let epochMs : Int ← resolveEpochMs tps optEpochMs
  if epochMs < 0 ∨ epochMs > 0xffffffffffff then throw Err.sealEpochInvalid
  else
    let content := sealContent deflateRaw nonceBuf tps compress epochMs.toNat
    pure (content ++ 0x01 :: sign content)

/-- Verification and decode (`verifyAndDecode`), with the Ed25519
verifier injected (it returns `false` both on a bad signature and on an
exception from malformed key material, as the source catch does). -/
def verifyAndDecode (verify : List Nat → List Nat → Bool)
    (inflateRaw : List Nat → List Nat) (sealedBytes : List Nat) :
    Except Err DecodeResult := do
  if sealedBytes.length < 18 then throw Err.tooShort
  else if ¬(sealedBytes.getD 0 0 = 0x54 ∧ sealedBytes.getD 1 0 = 0x50 ∧
      sealedBytes.getD 2 0 = 0x55 ∧ sealedBytes.getD 3 0 = 0x37) then
    throw Err.badMagic
  else
    let flags := sealedBytes.getD 5 0
    if flags &&& 0x02 = 0 then throw Err.notSealed
    else
      let lv ← uvarintDecode sealedBytes 16
      let payloadEnd := 16 + lv.2 + lv.1
      if payloadEnd > sealedBytes.length then throw Err.truncated
      else
        let content := sealedBytes.take payloadEnd
        if sealedBytes.length ≤ payloadEnd + 1 then throw Err.missingSignatureData
        else
          let sealType := sealedBytes.getD payloadEnd 0
          if sealType ≠ 0x01 then throw (Err.unsupportedSealType sealType)
          else
            let signature := sealedBytes.drop (payloadEnd + 1)
            if signature.length ≠ 64 then throw (Err.badSignatureLength signature.length)
            else if !(verify content signature) then throw Err.signatureInvalid
            else decodeBinary inflateRaw content

/-- Captured `Date` instant: `getTime` plus the UTC components the
generators read.  The platform links them; the codec reads them through
this record only. -/
structure JsDate where
  getTime : Int
  utcFullYear : Int
  utcMonth : Nat
  utcDate : Nat
  utcHours : Nat
  utcMinutes : Nat
  utcSeconds : Nat
  deriving Repr

/-- Options of `generate`.  The coordinate fields are the decimal text the
template literal renders for the caller-supplied numbers. -/
structure GenOpts where
  latitude : Option (List Nat)
  longitude : Option (List Nat)
  altitude : Option (List Nat)
  compress : Option Bool
  deriving Repr

/-- Decimal digits of a natural number; the fuel equals the number itself
and never runs out. -/
def natToDigitsGo : Nat → Nat → List Nat
  | 0, n => [48 + n % 10]
  | fuel + 1, n => if n < 10 then [48 + n] else natToDigitsGo fuel (n / 10) ++ [48 + n % 10]

/-- Decimal text of a natural number (`Number.prototype.toString`). -/
def natToStr (n : Nat) : List Nat := natToDigitsGo n n

/-- Decimal text of an integer. -/
def intToStr (i : Int) : List Nat :=
  if i < 0 then 45 :: natToStr i.natAbs else natToStr i.toNat

/-- Two-digit zero padding (`padStart(2, "0")`). -/
def pad2 (l : List Nat) : List Nat := List.replicate (2 - l.length) 48 ++ l

/-- Payload builder (`generateTPSString`): second-truncated Gregorian UTC
time text plus the optional coordinate part. -/
def generateTPSString (date : JsDate) (o : GenOpts) : List Nat :=
  let m := date.utcFullYear.fdiv 1000 + 1
  let c := (date.utcFullYear.tmod 1000).fdiv 100 + 1
  let y := date.utcFullYear.tmod 100
  let timePart := str "T:greg.m" ++ intToStr m ++ str ".c" ++ intToStr c ++
    str ".y" ++ intToStr y ++ str ".M" ++ pad2 (natToStr (date.utcMonth + 1)) ++
    str ".d" ++ pad2 (natToStr date.utcDate) ++ str ".h" ++ pad2 (natToStr date.utcHours) ++
    str ".n" ++ pad2 (natToStr date.utcMinutes) ++ str ".s" ++ pad2 (natToStr date.utcSeconds)
  let spacePart :=
    match o.latitude, o.longitude with
    | some la, some lo =>
      la ++ str "," ++ lo ++
        (match o.altitude with
         | some al => str "," ++ al ++ str "m"
         | none => [])
    | _, _ => str "unknown"
  str "tps://" ++ spacePart ++ str "@" ++ timePart

/-- Generator (`generate`): build the payload from the captured instant
and encode with `epochMs` pinned to `getTime` of that same instant. -/
def generate (deflateRaw : List Nat → List Nat) (nonceBuf : List Nat)
    (date : JsDate) (o : GenOpts) : Except Err (List Nat) :=
  encodeBinaryB64 deflateRaw nonceBuf (generateTPSString date o) o.compress
    (some date.getTime)

/-- Single-byte tamper: XOR the byte at `p` with 0xFF, as the test suite
does with a sealed buffer. -/
def flipByte (p : Nat) (l : List Nat) : List Nat := l.set p ((l.getD p 0) ^^^ 0xFF)

/-- Concrete payload string used by the examples of the specification. -/
def tpsExample : List Nat := str "tps://31.95,35.91,800m@T:greg.m3.c1.y26.M01.d09.h14.n30.s25"

/-- Concrete sealed token: `seal` run with the identity deflate adapter, a
fixed nonce, an explicit epoch and a constant signer. -/
def sealedExample : List Nat :=
  ((sealToken (fun _ => List.replicate 64 0) (fun d => d) [1, 2, 3, 4] tpsExample none
    (some 0)).toOption).getD []

/-- Loop of the specification-side LEB128 encoder for claim C4. -/
def leb128Go : Nat → Nat → List Nat
  | 0, x => [x]
  | fuel + 1, x =>
    if x < 0x80 then [x] else (x % 0x80 + 0x80) :: leb128Go fuel (x / 0x80)

/-- Standard LEB128 encoding, written from the words of the specification
for claim C4 (7 data bits per group, continuation bit on all but the final
group, no 32-bit truncation).  Ten groups cover every value below 2 to the
70th, far beyond the ranges the claim concerns. -/
def leb128 (n : Nat) : List Nat := leb128Go 10 n

/-! Helper lemmas: bit arithmetic. -/

theorem lor_eq_add_of_lt {x g s : Nat} (hx : x < 2 ^ s) :
    x ||| g * 2 ^ s = x + g * 2 ^ s := by
  apply Nat.eq_of_testBit_eq
  intro i
  rcases Nat.lt_or_ge i s with hi | hi
  · have hgs : Nat.testBit (g * 2 ^ s) i = false := by
      rw [← Nat.shiftLeft_eq, Nat.testBit_shiftLeft]
      simp [Nat.not_le.mpr hi]
    have hpow : (2 : Nat) ^ s = 2 ^ (s - i - 1) * 2 * 2 ^ i := by
      rw [Nat.mul_assoc, ← Nat.pow_succ', ← Nat.pow_add]
      congr 1
      omega
    have hadd : Nat.testBit (x + g * 2 ^ s) i = Nat.testBit x i := by
      rw [Nat.testBit_to_div_mod, Nat.testBit_to_div_mod, hpow, ← Nat.mul_assoc,
        Nat.add_mul_div_right _ _ (Nat.two_pow_pos i), ← Nat.mul_assoc,
        Nat.add_mul_mod_self_right]
    rw [Nat.testBit_lor, hgs, hadd, Bool.or_false]
  · have hxi : Nat.testBit x i = false :=
      Nat.testBit_lt_two_pow
        (Nat.lt_of_lt_of_le hx (Nat.pow_le_pow_right (by norm_num) hi))
    have hdiv : (x + g * 2 ^ s) / 2 ^ i = g / 2 ^ (i - s) := by
      have hpow : (2 : Nat) ^ i = 2 ^ s * 2 ^ (i - s) := by
        rw [← Nat.pow_add]
        congr 1
        omega
      rw [hpow, ← Nat.div_div_eq_div_mul,
        Nat.add_mul_div_right _ _ (Nat.two_pow_pos s), Nat.div_eq_of_lt hx,
        Nat.zero_add]
    have hadd : Nat.testBit (x + g * 2 ^ s) i = Nat.testBit g (i - s) := by
      rw [Nat.testBit_to_div_mod, Nat.testBit_to_div_mod, hdiv]
    have hgs : Nat.testBit (g * 2 ^ s) i = Nat.testBit g (i - s) := by
      rw [← Nat.shiftLeft_eq, Nat.testBit_shiftLeft]
      simp [hi]
    rw [Nat.testBit_lor, hxi, hadd, hgs, Bool.false_or]

theorem shl32_eq {v s : Nat} (hs : s < 32) (hv : v * 2 ^ s < 2 ^ 32) :
    TPSUID7RB.shl32 v s = v * 2 ^ s := by
  unfold TPSUID7RB.shl32
  rw [Nat.mod_eq_of_lt hs, Nat.shiftLeft_eq, Nat.mod_eq_of_lt hv]

/-! Helper lemmas: the varint coder. -/

theorem uvarintEncodeGo_length_pos (fuel x : Nat) :
    0 < (uvarintEncodeGo fuel x).length := by
  cases fuel with
  | zero => simp [uvarintEncodeGo]
  | succ f =>
    simp only [uvarintEncodeGo]
    split <;> simp

theorem uvarintEncodeGo_length_le (k : Nat) :
    ∀ fuel x, x < 2 ^ (7 * k + 7) → k ≤ fuel →
      (uvarintEncodeGo fuel x).length ≤ k + 1 := by
  induction k with
  | zero =>
    intro fuel x hx _
    cases fuel with
    | zero => simp [uvarintEncodeGo]
    | succ f =>
      simp only [uvarintEncodeGo]
      rw [if_neg (by omega)]
      simp
  | succ k ih =>
    intro fuel x hx hk
    cases fuel with
    | zero => omega
    | succ f =>
      simp only [uvarintEncodeGo]
      split
      · have hdiv : x / 0x80 < 2 ^ (7 * k + 7) := by
          rw [Nat.div_lt_iff_lt_mul (by norm_num)]
          calc x < 2 ^ (7 * (k + 1) + 7) := hx
            _ = 2 ^ (7 * k + 7) * 0x80 := by
              rw [show (0x80 : Nat) = 2 ^ 7 by norm_num, ← Nat.pow_add,
                show 7 * k + 7 + 7 = 7 * (k + 1) + 7 from by omega]
        have := ih f (x / 0x80) hdiv (by omega)
        simp only [List.length_cons]
        omega
      · simp

theorem uvarintEncodeGo_elem_lt :
    ∀ fuel x, x < 2 ^ (7 * fuel + 7) → ∀ b ∈ uvarintEncodeGo fuel x, b < 256 := by
  intro fuel
  induction fuel with
  | zero =>
    intro x hx b hb
    simp [uvarintEncodeGo] at hb
    omega
  | succ f ih =>
    intro x hx b hb
    simp only [uvarintEncodeGo] at hb
    by_cases hge : x ≥ 0x80
    · rw [if_pos hge] at hb
      rcases List.mem_cons.mp hb with h | h
      · omega
      · refine ih (x / 0x80) ?_ b h
        rw [Nat.div_lt_iff_lt_mul (by norm_num)]
        calc x < 2 ^ (7 * (f + 1) + 7) := hx
          _ = 2 ^ (7 * f + 7) * 0x80 := by
            rw [show (0x80 : Nat) = 2 ^ 7 by norm_num, ← Nat.pow_add,
              show 7 * f + 7 + 7 = 7 * (f + 1) + 7 from by omega]
    · rw [if_neg hge] at hb
      simp at hb
      omega

theorem uvarintDecodeGo_terminal {bytes : List Nat} {off i x s fuelD b : Nat}
    (hfuel : 1 ≤ fuelD)
    (hb : bytes.getD (off + i) 0 = b)
    (hblt : b < 0x80)
    (hin : off + i < bytes.length)
    (hi : i ≤ 4)
    (hs : s = 7 * i)
    (hx : x < 2 ^ s)
    (hlt : x + b * 2 ^ s < 2 ^ 32) :
    uvarintDecodeGo bytes off fuelD x s i = .ok (x + b * 2 ^ s, i + 1) := by
  obtain ⟨fd, rfl⟩ : ∃ fd, fuelD = fd + 1 := ⟨fuelD - 1, by omega⟩
  have hs32 : s < 32 := by omega
  have hbs : b * 2 ^ s < 2 ^ 32 := by omega
  simp only [uvarintDecodeGo]
  rw [if_neg (by omega), hb, if_pos hblt, if_neg (by omega),
    shl32_eq hs32 hbs, lor_eq_add_of_lt hx, Nat.mod_eq_of_lt hlt]

theorem uvarintDecodeGo_encode (fuelE : Nat) :
    ∀ (m : Nat) (bytes : List Nat) (off i x s fuelD : Nat),
      m < 2 ^ (7 * fuelE + 7) →
      s = 7 * i →
      x < 2 ^ s →
      x + m * 2 ^ s < 2 ^ 32 →
      (∀ j, j < (uvarintEncodeGo fuelE m).length →
        bytes.getD (off + i + j) 0 = (uvarintEncodeGo fuelE m).getD j 0) →
      off + i + (uvarintEncodeGo fuelE m).length ≤ bytes.length →
      i + (uvarintEncodeGo fuelE m).length ≤ 5 →
      (uvarintEncodeGo fuelE m).length ≤ fuelD →
      uvarintDecodeGo bytes off fuelD x s i =
        .ok (x + m * 2 ^ s, i + (uvarintEncodeGo fuelE m).length) := by
  induction fuelE with
  | zero =>
    intro m bytes off i x s fuelD hm hsv hx hlt hag hblen hi5 hfd
    simp only [uvarintEncodeGo, List.length_singleton] at *
    have hb : bytes.getD (off + i) 0 = m := by
      have := hag 0 (by omega)
      simpa using this
    exact uvarintDecodeGo_terminal hfd hb (by omega) (by omega) (by omega) hsv hx hlt
  | succ f ih =>
    intro m bytes off i x s fuelD hm hsv hx hlt hag hblen hi5 hfd
    by_cases hge : m ≥ 0x80
    · have henc : uvarintEncodeGo (f + 1) m =
          (m % 0x80 + 0x80) :: uvarintEncodeGo f (m / 0x80) := by
        simp only [uvarintEncodeGo]
        rw [if_pos hge]
      rw [henc] at hag hblen hi5 hfd ⊢
      simp only [List.length_cons] at hblen hi5 hfd
      have hl2pos : 0 < (uvarintEncodeGo f (m / 0x80)).length :=
        uvarintEncodeGo_length_pos f (m / 0x80)
      have hi3 : i ≤ 3 := by omega
      have hs32 : s < 32 := by omega
      obtain ⟨fd, rfl⟩ : ∃ fd, fuelD = fd + 1 := ⟨fuelD - 1, by omega⟩
      have hb0 : bytes.getD (off + i) 0 = m % 0x80 + 0x80 := by
        have := hag 0 (by simp)
        simpa using this
      have hp7 : (2 : Nat) ^ (s + 7) = 128 * 2 ^ s := by
        rw [Nat.pow_add]
        ring
      have hmod_le : m % 0x80 * 2 ^ s ≤ m * 2 ^ s :=
        Nat.mul_le_mul_right _ (Nat.mod_le m 0x80)
      have hshl : shl32 (m % 0x80) s = m % 0x80 * 2 ^ s :=
        shl32_eq hs32 (by omega)
      have hx2 : x ||| m % 0x80 * 2 ^ s = x + m % 0x80 * 2 ^ s :=
        lor_eq_add_of_lt hx
      have hx2lt : x + m % 0x80 * 2 ^ s < 2 ^ (s + 7) := by
        have h127 : m % 0x80 * 2 ^ s ≤ 127 * 2 ^ s :=
          Nat.mul_le_mul_right _ (by omega)
        rw [hp7]
        omega
      have hsum : m % 0x80 * 2 ^ s + m / 0x80 * 2 ^ (s + 7) = m * 2 ^ s := by
        rw [hp7, ← Nat.mul_assoc]
        rw [← Nat.add_mul]
        congr 1
        have := Nat.mod_add_div m 0x80
        omega
      have hdivlt : m / 0x80 < 2 ^ (7 * f + 7) := by
        rw [Nat.div_lt_iff_lt_mul (by norm_num)]
        calc m < 2 ^ (7 * (f + 1) + 7) := hm
          _ = 2 ^ (7 * f + 7) * 0x80 := by
            rw [show (0x80 : Nat) = 2 ^ 7 by norm_num, ← Nat.pow_add,
              show 7 * f + 7 + 7 = 7 * (f + 1) + 7 from by omega]
      simp only [uvarintDecodeGo]
      rw [if_neg (by omega), hb0, if_neg (by omega), if_neg (by omega)]
      have hrec := ih (m / 0x80) bytes off (i + 1) (x + m % 0x80 * 2 ^ s) (s + 7) fd
        hdivlt (by omega) hx2lt (by omega)
        (by
          intro j hj
          have h2 : off + (i + 1) + j = off + i + (j + 1) := by omega
          rw [h2]
          have := hag (j + 1) (by simp only [List.length_cons]; omega)
          simpa using this)
        (by omega) (by omega) (by omega)
      rw [show (m % 0x80 + 0x80) % 0x80 = m % 0x80 from by omega, hshl, hx2, hrec]
      simp only [Except.ok.injEq, Prod.mk.injEq, List.length_cons]
      constructor
      · omega
      · omega
    · have henc : uvarintEncodeGo (f + 1) m = [m] := by
        simp only [uvarintEncodeGo]
        rw [if_neg hge]
      rw [henc] at hag hblen hi5 hfd ⊢
      simp only [List.length_singleton] at *
      have hb : bytes.getD (off + i) 0 = m := by
        have := hag 0 (by omega)
        simpa using this
      exact uvarintDecodeGo_terminal hfd hb (by omega) (by omega) (by omega) hsv hx hlt

theorem uvarintDecode_encode_append (pre suf : List Nat) (n : Nat) (hn : n < 2 ^ 32) :
    uvarintDecode (pre ++ (uvarintEncode n ++ suf)) pre.length =
      .ok (n, (uvarintEncode n).length) := by
  have hmod : n % 2 ^ 32 = n := Nat.mod_eq_of_lt hn
  have hlen5 : (uvarintEncodeGo 5 n).length ≤ 5 :=
    uvarintEncodeGo_length_le 4 5 n (by omega) (by omega)
  unfold uvarintDecode uvarintEncode
  rw [hmod]
  have h := uvarintDecodeGo_encode 5 n (pre ++ (uvarintEncodeGo 5 n ++ suf))
    pre.length 0 0 0 11 (by omega) (by omega) (by norm_num) (by simpa using hn)
    (by
      intro j hj
      rw [List.getD_eq_getElem?_getD, List.getD_eq_getElem?_getD,
        List.getElem?_append_right (by omega)]
      have h2 : pre.length + 0 + j - pre.length = j := by omega
      rw [h2, List.getElem?_append_left hj])
    (by
      simp only [List.length_append]
      omega)
    (by omega) (by omega)
  simpa using h

theorem uvarintDecodeGo_bytesRead_gt :
    ∀ fuel {bytes : List Nat} {off x s i v k},
      uvarintDecodeGo bytes off fuel x s i = .ok (v, k) → i < k := by
  intro fuel
  induction fuel with
  | zero =>
    intro bytes off x s i v k h
    simp [uvarintDecodeGo] at h
  | succ f ih =>
    intro bytes off x s i v k h
    simp only [uvarintDecodeGo] at h
    by_cases h1 : off + i ≥ bytes.length
    · rw [if_pos h1] at h
      simp at h
    · rw [if_neg h1] at h
      by_cases h2 : bytes.getD (off + i) 0 < 0x80
      · rw [if_pos h2] at h
        by_cases h3 : i > 9 ∨ (i = 9 ∧ bytes.getD (off + i) 0 > 1)
        · rw [if_pos h3] at h
          simp at h
        · rw [if_neg h3] at h
          simp only [Except.ok.injEq, Prod.mk.injEq] at h
          omega
      · rw [if_neg h2] at h
        by_cases h4 : i + 1 > 10
        · rw [if_pos h4] at h
          simp at h
        · rw [if_neg h4] at h
          have := ih h
          omega

theorem uvarintDecodeGo_append :
    ∀ fuel {bytes ext : List Nat} {off x s i v},
      uvarintDecodeGo bytes off fuel x s i = .ok v →
      uvarintDecodeGo (bytes ++ ext) off fuel x s i = .ok v := by
  intro fuel
  induction fuel with
  | zero =>
    intro bytes ext off x s i v h
    simp [uvarintDecodeGo] at h
  | succ f ih =>
    intro bytes ext off x s i v h
    simp only [uvarintDecodeGo] at h ⊢
    by_cases h1 : off + i ≥ bytes.length
    · rw [if_pos h1] at h
      simp at h
    · rw [if_neg h1] at h
      have h1b : ¬ off + i ≥ (bytes ++ ext).length := by
        simp only [List.length_append]
        omega
      rw [if_neg h1b]
      have hg : (bytes ++ ext).getD (off + i) 0 = bytes.getD (off + i) 0 := by
        rw [List.getD_eq_getElem?_getD, List.getD_eq_getElem?_getD,
          List.getElem?_append_left (by omega)]
      rw [hg]
      by_cases h2 : bytes.getD (off + i) 0 < 0x80
      · rw [if_pos h2] at h ⊢
        exact h
      · rw [if_neg h2] at h ⊢
        by_cases h4 : i + 1 > 10
        · rw [if_pos h4] at h
          simp at h
        · rw [if_neg h4] at h ⊢
          exact ih h

theorem utf8DecodeGo_nil (fuel : Nat) : utf8DecodeGo fuel [] = [] := by
  cases fuel <;> rfl

theorem isUtf8Cont_true {b : Nat} (h1 : 0x80 ≤ b) (h2 : b < 0xC0) :
    isUtf8Cont b = true := by
  simp only [isUtf8Cont, Bool.and_eq_true, decide_eq_true_eq]
  omega

theorem utf8DecodeGo_encodeChar (c : Nat) (rest : List Nat) (f : Nat)
    (hc : validScalar c = true) :
    utf8DecodeGo (f + 1) (utf8EncodeChar c ++ rest) = c :: utf8DecodeGo f rest := by
  simp only [validScalar, Bool.and_eq_true, decide_eq_true_eq, Bool.not_eq_true',
    Bool.and_eq_false_iff, decide_eq_false_iff_not, not_le, not_lt] at hc
  by_cases h1 : c < 0x80
  · rw [utf8EncodeChar, if_pos h1, show ([c] : List Nat) ++ rest = c :: rest from rfl]
    simp only [utf8DecodeGo]
    rw [if_pos h1]
  · by_cases h2 : c < 0x800
    · rw [utf8EncodeChar, if_neg h1, if_pos h2,
        show ([0xC0 + c / 64, 0x80 + c % 64] : List Nat) ++ rest =
          (0xC0 + c / 64) :: (0x80 + c % 64) :: rest from rfl]
      simp only [utf8DecodeGo]
      rw [if_neg (by omega), if_neg (by omega), if_pos (by omega),
        if_pos ⟨by simp, by
          rw [show ((0x80 + c % 64) :: rest).getD 0 0 = 0x80 + c % 64 from rfl]
          exact isUtf8Cont_true (by omega) (by omega)⟩,
        show ((0x80 + c % 64) :: rest).getD 0 0 = 0x80 + c % 64 from rfl,
        show ((0x80 + c % 64) :: rest).drop 1 = rest from rfl]
      congr 1
      omega
    · by_cases h3 : c < 0x10000
      · rw [utf8EncodeChar, if_neg h1, if_neg h2, if_pos h3,
          show ([0xE0 + c / 4096, 0x80 + c / 64 % 64, 0x80 + c % 64] : List Nat) ++ rest =
            (0xE0 + c / 4096) :: (0x80 + c / 64 % 64) :: (0x80 + c % 64) :: rest from rfl]
        simp only [utf8DecodeGo]
        rw [if_neg (by omega), if_neg (by omega), if_neg (by omega), if_pos (by omega),
          if_pos ⟨by simp, by
            rw [show ((0x80 + c / 64 % 64) :: (0x80 + c % 64) :: rest).getD 0 0 =
              0x80 + c / 64 % 64 from rfl]
            exact isUtf8Cont_true (by omega) (by omega), by
            rw [show ((0x80 + c / 64 % 64) :: (0x80 + c % 64) :: rest).getD 1 0 =
              0x80 + c % 64 from rfl]
            exact isUtf8Cont_true (by omega) (by omega)⟩,
          show ((0x80 + c / 64 % 64) :: (0x80 + c % 64) :: rest).getD 0 0 =
            0x80 + c / 64 % 64 from rfl,
          show ((0x80 + c / 64 % 64) :: (0x80 + c % 64) :: rest).getD 1 0 =
            0x80 + c % 64 from rfl,
          show ((0x80 + c / 64 % 64) :: (0x80 + c % 64) :: rest).drop 2 = rest from rfl]
        congr 1
        omega
      · rw [utf8EncodeChar, if_neg h1, if_neg h2, if_neg h3,
          show ([0xF0 + c / 262144, 0x80 + c / 4096 % 64, 0x80 + c / 64 % 64,
              0x80 + c % 64] : List Nat) ++ rest =
            (0xF0 + c / 262144) :: (0x80 + c / 4096 % 64) :: (0x80 + c / 64 % 64) ::
              (0x80 + c % 64) :: rest from rfl]
        simp only [utf8DecodeGo]
        have hc4 : c / 262144 ≤ 4 := by omega
        rw [if_neg (by omega), if_neg (by omega), if_neg (by omega), if_neg (by omega),
          if_pos (by omega),
          if_pos ⟨by simp, by
            rw [show ((0x80 + c / 4096 % 64) :: (0x80 + c / 64 % 64) ::
              (0x80 + c % 64) :: rest).getD 0 0 = 0x80 + c / 4096 % 64 from rfl]
            exact isUtf8Cont_true (by omega) (by omega), by
            rw [show ((0x80 + c / 4096 % 64) :: (0x80 + c / 64 % 64) ::
              (0x80 + c % 64) :: rest).getD 1 0 = 0x80 + c / 64 % 64 from rfl]
            exact isUtf8Cont_true (by omega) (by omega), by
            rw [show ((0x80 + c / 4096 % 64) :: (0x80 + c / 64 % 64) ::
              (0x80 + c % 64) :: rest).getD 2 0 = 0x80 + c % 64 from rfl]
            exact isUtf8Cont_true (by omega) (by omega)⟩,
          show ((0x80 + c / 4096 % 64) :: (0x80 + c / 64 % 64) ::
            (0x80 + c % 64) :: rest).getD 0 0 = 0x80 + c / 4096 % 64 from rfl,
          show ((0x80 + c / 4096 % 64) :: (0x80 + c / 64 % 64) ::
            (0x80 + c % 64) :: rest).getD 1 0 = 0x80 + c / 64 % 64 from rfl,
          show ((0x80 + c / 4096 % 64) :: (0x80 + c / 64 % 64) ::
            (0x80 + c % 64) :: rest).getD 2 0 = 0x80 + c % 64 from rfl,
          show ((0x80 + c / 4096 % 64) :: (0x80 + c / 64 % 64) ::
            (0x80 + c % 64) :: rest).drop 3 = rest from rfl]
        congr 1
        omega

theorem utf8DecodeGo_encode (s : List Nat) (h : ∀ c ∈ s, validScalar c = true) :
    ∀ fuel, s.length ≤ fuel → utf8DecodeGo fuel (utf8Encode s) = s := by
  induction s with
  | nil =>
    intro fuel _
    exact utf8DecodeGo_nil fuel
  | cons c rest ih =>
    intro fuel hf
    obtain ⟨f, rfl⟩ : ∃ f, fuel = f + 1 := ⟨fuel - 1, by simp at hf; omega⟩
    have henc : utf8Encode (c :: rest) = utf8EncodeChar c ++ utf8Encode rest := by
      simp [utf8Encode]
    rw [henc, utf8DecodeGo_encodeChar c _ f (h c (by simp)),
      ih (fun x hx => h x (by simp [hx])) f (by simp at hf; omega)]

theorem utf8Encode_length_ge (s : List Nat) : s.length ≤ (utf8Encode s).length := by
  induction s with
  | nil => simp [utf8Encode]
  | cons c rest ih =>
    have henc : utf8Encode (c :: rest) = utf8EncodeChar c ++ utf8Encode rest := by
      simp [utf8Encode]
    have hchar : 1 ≤ (utf8EncodeChar c).length := by
      unfold utf8EncodeChar
      split
      · simp
      · split
        · simp
        · split <;> simp
    rw [henc]
    simp only [List.length_append, List.length_cons]
    omega

theorem utf8_roundtrip (s : List Nat) (h : ∀ c ∈ s, validScalar c = true) :
    utf8Decode (utf8Encode s) = s := by
  unfold utf8Decode
  exact utf8DecodeGo_encode s h (utf8Encode s).length (utf8Encode_length_ge s)

theorem b64Val_b64Chr : ∀ v < 64, b64Val (b64Chr v) = some v := by decide

theorem b64Chr_range (v : Nat) : 45 ≤ b64Chr v ∧ b64Chr v ≤ 122 := by
  unfold b64Chr
  split
  · omega
  · split
    · omega
    · split
      · omega
      · split
        · omega
        · omega

theorem base64_roundtrip :
    ∀ bs : List Nat, (∀ b ∈ bs, b < 256) →
      base64UrlDecode (base64UrlEncode bs) = bs := by
  intro bs
  induction bs using base64UrlEncode.induct with
  | case1 =>
    intro _
    rfl
  | case2 a =>
    intro h
    have ha : a < 256 := h a (by simp)
    unfold base64UrlEncode base64UrlDecode
    rw [List.filterMap_cons, b64Val_b64Chr (a / 4) (by omega),
      List.filterMap_cons, b64Val_b64Chr (a % 4 * 16) (by omega),
      List.filterMap_nil]
    unfold b64Assemble
    congr 1
    omega
  | case3 a b =>
    intro h
    have ha : a < 256 := h a (by simp)
    have hb : b < 256 := h b (by simp)
    unfold base64UrlEncode base64UrlDecode
    rw [List.filterMap_cons, b64Val_b64Chr (a / 4) (by omega),
      List.filterMap_cons, b64Val_b64Chr (a % 4 * 16 + b / 16) (by omega),
      List.filterMap_cons, b64Val_b64Chr (b % 16 * 4) (by omega),
      List.filterMap_nil]
    unfold b64Assemble
    congr 1
    · omega
    · congr 1
      omega
  | case4 a b c rest ih =>
    intro h
    have ha : a < 256 := h a (by simp)
    have hb : b < 256 := h b (by simp)
    have hc : c < 256 := h c (by simp)
    have hrest : ∀ x ∈ rest, x < 256 := fun x hx => h x (by simp [hx])
    unfold base64UrlEncode
    unfold base64UrlDecode
    rw [List.filterMap_cons, b64Val_b64Chr (a / 4) (by omega),
      List.filterMap_cons, b64Val_b64Chr (a % 4 * 16 + b / 16) (by omega),
      List.filterMap_cons, b64Val_b64Chr (b % 16 * 4 + c / 64) (by omega),
      List.filterMap_cons, b64Val_b64Chr (c % 64) (by omega)]
    unfold b64Assemble
    have hres := ih hrest
    unfold base64UrlDecode at hres
    rw [hres]
    congr 1
    · omega
    · congr 1
      · omega
      · congr 1
        omega

theorem dropWhile_eq_nil_of_ws {w : List Nat} (h : ∀ c ∈ w, isJsWs c = true) :
    w.dropWhile isJsWs = [] := by
  induction w with
  | nil => rfl
  | cons c rest ih =>
    rw [List.dropWhile_cons, if_pos (h c (by simp))]
    exact ih fun x hx => h x (by simp [hx])

theorem jsTrim_append_ws (w1 w2 id : List Nat)
    (h1 : ∀ c ∈ w1, isJsWs c = true) (h2 : ∀ c ∈ w2, isJsWs c = true) :
    jsTrim (w1 ++ id ++ w2) = jsTrim id := by
  unfold jsTrim
  rw [List.append_assoc, List.dropWhile_append_of_pos h1, List.dropWhile_append]
  by_cases he : (id.dropWhile isJsWs).isEmpty
  · rw [if_pos he, dropWhile_eq_nil_of_ws h2]
    rw [List.isEmpty_iff] at he
    rw [he]
  · rw [if_neg he, List.reverse_append, List.dropWhile_append_of_pos
      (by intro c hc; exact h2 c (List.mem_reverse.mp hc))]

end TPSUID7RB

namespace TPSUID7RB

theorem uvarintDecodeGo_ext :
    ∀ fuel {bytes bytes2 : List Nat} {off x s i v k},
      bytes2.length = bytes.length →
      uvarintDecodeGo bytes off fuel x s i = .ok (v, k) →
      (∀ j, i ≤ j → j < k → bytes2.getD (off + j) 0 = bytes.getD (off + j) 0) →
      uvarintDecodeGo bytes2 off fuel x s i = .ok (v, k) := by
  intro fuel
  induction fuel with
  | zero =>
    intro bytes bytes2 off x s i v k hlen h hag
    simp [uvarintDecodeGo] at h
  | succ f ih =>
    intro bytes bytes2 off x s i v k hlen h hag
    have hik : i < k := uvarintDecodeGo_bytesRead_gt (f + 1) h
    simp only [uvarintDecodeGo] at h ⊢
    by_cases h1 : off + i ≥ bytes.length
    · rw [if_pos h1] at h
      simp at h
    · rw [if_neg h1] at h
      rw [if_neg (by omega)]
      rw [hag i (by omega) hik]
      by_cases h2 : bytes.getD (off + i) 0 < 0x80
      · rw [if_pos h2] at h ⊢
        exact h
      · rw [if_neg h2] at h ⊢
        by_cases h4 : i + 1 > 10
        · rw [if_pos h4] at h
          simp at h
        · rw [if_neg h4] at h ⊢
          refine ih hlen h ?_
          intro j hj hjk
          exact hag j (by omega) hjk

theorem binLayout_eq (flags e48 n0 n1 n2 n3 : Nat) (payload : List Nat) :
    binLayout flags e48 [n0, n1, n2, n3] payload =
      0x54 :: 0x50 :: 0x55 :: 0x37 :: 0x01 :: flags ::
      (e48 / 2 ^ 40 % 256) :: (e48 / 2 ^ 32 % 256) :: (e48 / 2 ^ 24 % 256) ::
      (e48 / 2 ^ 16 % 256) :: (e48 / 2 ^ 8 % 256) :: (e48 % 256) ::
      n0 :: n1 :: n2 :: n3 :: (uvarintEncode payload.length ++ payload) := by
  simp [binLayout, MAGIC, VER, writeU48]

theorem decodeBinary_binLayout (inflateRaw : List Nat → List Nat)
    (flags e48 n0 n1 n2 n3 : Nat) (payload : List Nat)
    (he : e48 < 2 ^ 48) (hpl : payload.length < 2 ^ 32) :
    decodeBinary inflateRaw (binLayout flags e48 [n0, n1, n2, n3] payload) =
      .ok { epochMs := e48
            compressed := (flags &&& 0x01) == 0x01
            nonce := (n0 <<< 24) % 2 ^ 32 + (n1 <<< 16) % 2 ^ 32 +
              (n2 <<< 8) % 2 ^ 32 + n3
            tps := utf8Decode (if (flags &&& 0x01) == 0x01 then inflateRaw payload
              else payload) } := by
  rw [binLayout_eq]
  generalize hEnc : uvarintEncode payload.length = enc
  have hencpos : 0 < enc.length := by rw [← hEnc]; exact uvarintEncodeGo_length_pos _ _
  set B : List Nat := 0x54 :: 0x50 :: 0x55 :: 0x37 :: 0x01 :: flags ::
      (e48 / 2 ^ 40 % 256) :: (e48 / 2 ^ 32 % 256) :: (e48 / 2 ^ 24 % 256) ::
      (e48 / 2 ^ 16 % 256) :: (e48 / 2 ^ 8 % 256) :: (e48 % 256) ::
      n0 :: n1 :: n2 :: n3 :: (enc ++ payload) with hB
  have hlen : B.length = 16 + (enc.length + payload.length) := by
    simp [hB]
    omega
  have h17 : ¬ (B.length < 17) := by omega
  have hread : readU48 B 6 = .ok e48 := by
    unfold readU48
    rw [show B.getD 6 0 = e48 / 2 ^ 40 % 256 from rfl,
      show B.getD 7 0 = e48 / 2 ^ 32 % 256 from rfl,
      show B.getD 8 0 = e48 / 2 ^ 24 % 256 from rfl,
      show B.getD 9 0 = e48 / 2 ^ 16 % 256 from rfl,
      show B.getD 10 0 = e48 / 2 ^ 8 % 256 from rfl,
      show B.getD 11 0 = e48 % 256 from rfl]
    rw [if_pos (by omega)]
    congr 1
    omega
  have huv : uvarintDecode B 16 = .ok (payload.length, enc.length) := by
    have h := uvarintDecode_encode_append
      [0x54, 0x50, 0x55, 0x37, 0x01, flags, e48 / 2 ^ 40 % 256, e48 / 2 ^ 32 % 256,
       e48 / 2 ^ 24 % 256, e48 / 2 ^ 16 % 256, e48 / 2 ^ 8 % 256, e48 % 256,
       n0, n1, n2, n3] payload payload.length hpl
    rw [hEnc] at h
    simpa [hB] using h
  unfold decodeBinary
  rw [if_neg h17, if_neg (not_not_intro ⟨rfl, rfl, rfl, rfl⟩)]
  rw [if_neg (show ¬ (B.getD 4 0 ≠ VER) from not_not_intro rfl)]
  rw [hread, huv]
  simp only [Bind.bind, Except.bind]
  rw [show B.getD 5 0 = flags from rfl, show B.getD 12 0 = n0 from rfl,
    show B.getD 13 0 = n1 from rfl, show B.getD 14 0 = n2 from rfl,
    show B.getD 15 0 = n3 from rfl]
  rw [if_neg (by omega)]
  have hdrop : List.drop (16 + enc.length) B = payload := by
    have hB2 : B = ([0x54, 0x50, 0x55, 0x37, 0x01, flags, e48 / 2 ^ 40 % 256,
        e48 / 2 ^ 32 % 256, e48 / 2 ^ 24 % 256, e48 / 2 ^ 16 % 256, e48 / 2 ^ 8 % 256,
        e48 % 256, n0, n1, n2, n3] ++ enc) ++ payload := by
      simp [hB]
    rw [hB2]
    exact List.drop_left' (by simp; omega)
  rw [hdrop, List.take_length]
  rfl

theorem ebind_ok {α β : Type} (a : α) (f : α → Except Err β) :
    Except.bind (Except.ok a) f = f a := rfl

theorem uvarintDecode_append {bytes ext : List Nat} {off : Nat} {v : Nat × Nat}
    (h : uvarintDecode bytes off = .ok v) :
    uvarintDecode (bytes ++ ext) off = .ok v :=
  uvarintDecodeGo_append 11 h

theorem decodeBinary_append {inflateRaw : List Nat → List Nat} {b x : List Nat}
    {r : DecodeResult} (h : decodeBinary inflateRaw b = .ok r) :
    decodeBinary inflateRaw (b ++ x) = .ok r := by
  unfold decodeBinary at h ⊢
  by_cases h17 : b.length < 17
  · rw [if_pos h17] at h
    simp at h
  · rw [if_neg h17] at h
    have hg : ∀ i, i < b.length → (b ++ x).getD i 0 = b.getD i 0 := by
      intro i hi
      rw [List.getD_eq_getElem?_getD, List.getD_eq_getElem?_getD,
        List.getElem?_append_left hi]
    rw [if_neg (show ¬ (b ++ x).length < 17 by
      simp only [List.length_append]
      omega)]
    by_cases hm : b.getD 0 0 = 0x54 ∧ b.getD 1 0 = 0x50 ∧ b.getD 2 0 = 0x55 ∧
        b.getD 3 0 = 0x37
    · rw [if_neg (not_not_intro hm)] at h
      rw [if_neg (not_not_intro ⟨by rw [hg 0 (by omega)]; exact hm.1,
        by rw [hg 1 (by omega)]; exact hm.2.1, by rw [hg 2 (by omega)]; exact hm.2.2.1,
        by rw [hg 3 (by omega)]; exact hm.2.2.2⟩)]
      by_cases hv : b.getD 4 0 ≠ VER
      · rw [if_pos hv] at h
        simp at h
      · rw [if_neg hv] at h
        rw [hg 4 (by omega), if_neg hv]
        have hr48 : readU48 (b ++ x) 6 = readU48 b 6 := by
          unfold readU48
          rw [hg 6 (by omega), hg 7 (by omega), hg 8 (by omega), hg 9 (by omega),
            hg 10 (by omega), hg 11 (by omega)]
        rcases hre : readU48 b 6 with e | e
        · rw [hre] at h
          simp [Bind.bind, Except.bind] at h
        · rw [hre] at h
          rw [hr48, hre]
          simp only [Bind.bind, ebind_ok] at h ⊢
          rcases huv : uvarintDecode b 16 with lv | lv
          · rw [huv] at h
            simp [Except.bind] at h
          · rw [huv] at h
            rw [uvarintDecode_append huv]
            simp only [ebind_ok] at h ⊢
            by_cases hb2 : 16 + lv.2 + lv.1 > b.length
            · rw [if_pos hb2] at h
              simp at h
            · rw [if_neg hb2] at h
              rw [if_neg (show ¬ 16 + lv.2 + lv.1 > (b ++ x).length by
                simp only [List.length_append]
                omega)]
              have hslice : List.take lv.1 (List.drop (16 + lv.2) (b ++ x)) =
                  List.take lv.1 (List.drop (16 + lv.2) b) := by
                rw [List.drop_append_of_le_length (by omega),
                  List.take_append_of_le_length (by simp [List.length_drop]; omega)]
              rw [hslice, hg 5 (by omega), hg 12 (by omega), hg 13 (by omega),
                hg 14 (by omega), hg 15 (by omega)]
              exact h
    · rw [if_pos ?hcon] at h
      case hcon =>
        intro hcc
        exact hm hcc
      simp at h

theorem verifyAndDecode_layout (verify : List Nat → List Nat → Bool)
    (inflateRaw : List Nat → List Nat) (flags2 e48 n0 n1 n2 n3 : Nat)
    (payload sig : List Nat) (hseal : flags2 &&& 0x02 ≠ 0) (hsig : sig.length = 64)
    (hpl : payload.length < 2 ^ 32) :
    verifyAndDecode verify inflateRaw
        (binLayout flags2 e48 [n0, n1, n2, n3] payload ++ 0x01 :: sig) =
      if verify (binLayout flags2 e48 [n0, n1, n2, n3] payload) sig then
        decodeBinary inflateRaw (binLayout flags2 e48 [n0, n1, n2, n3] payload)
      else .error Err.signatureInvalid := by
  generalize hC : binLayout flags2 e48 [n0, n1, n2, n3] payload = content
  have hencpos : 0 < (uvarintEncode payload.length).length :=
    uvarintEncodeGo_length_pos _ _
  have hClen : content.length = 16 + (uvarintEncode payload.length).length +
      payload.length := by
    rw [← hC]
    simp [binLayout, MAGIC, VER, writeU48]
    omega
  have hg : ∀ i, i < content.length →
      (content ++ 0x01 :: sig).getD i 0 = content.getD i 0 := by
    intro i hi
    rw [List.getD_eq_getElem?_getD, List.getD_eq_getElem?_getD,
      List.getElem?_append_left hi]
  have hgC : ∀ i, i < 16 → content.getD i 0 =
      (binLayout flags2 e48 [n0, n1, n2, n3] payload).getD i 0 := by
    intro i _
    rw [hC]
  have huv : uvarintDecode (content ++ 0x01 :: sig) 16 =
      .ok (payload.length, (uvarintEncode payload.length).length) := by
    have h := uvarintDecode_encode_append
      [0x54, 0x50, 0x55, 0x37, 0x01, flags2, e48 / 2 ^ 40 % 256, e48 / 2 ^ 32 % 256,
       e48 / 2 ^ 24 % 256, e48 / 2 ^ 16 % 256, e48 / 2 ^ 8 % 256, e48 % 256,
       n0, n1, n2, n3] (payload ++ 0x01 :: sig) payload.length hpl
    have hshape : ([0x54, 0x50, 0x55, 0x37, 0x01, flags2, e48 / 2 ^ 40 % 256,
        e48 / 2 ^ 32 % 256, e48 / 2 ^ 24 % 256, e48 / 2 ^ 16 % 256, e48 / 2 ^ 8 % 256,
        e48 % 256, n0, n1, n2, n3] : List Nat) ++
        (uvarintEncode payload.length ++ (payload ++ 0x01 :: sig)) =
        content ++ 0x01 :: sig := by
      rw [← hC]
      simp [binLayout, MAGIC, VER, writeU48]
    rw [hshape] at h
    simpa using h
  unfold verifyAndDecode
  rw [if_neg (show ¬ (content ++ 0x01 :: sig).length < 18 by
    simp only [List.length_append, List.length_cons]
    omega)]
  rw [if_neg (not_not_intro
    ⟨by rw [hg 0 (by omega), hgC 0 (by omega), binLayout_eq]; rfl,
    by rw [hg 1 (by omega), hgC 1 (by omega), binLayout_eq]; rfl,
    by rw [hg 2 (by omega), hgC 2 (by omega), binLayout_eq]; rfl,
    by rw [hg 3 (by omega), hgC 3 (by omega), binLayout_eq]; rfl⟩)]
  have hflags : (content ++ 0x01 :: sig).getD 5 0 = flags2 := by
    rw [hg 5 (by omega), hgC 5 (by omega), binLayout_eq]
    rfl
  rw [hflags, if_neg (show ¬ flags2 &&& 2 = 0 from hseal)]
  rw [huv]
  simp only [Bind.bind, ebind_ok]
  rw [if_neg (show ¬ 16 + (uvarintEncode payload.length).length + payload.length >
      (content ++ 0x01 :: sig).length by
    simp only [List.length_append, List.length_cons]
    omega)]
  rw [show List.take (16 + (uvarintEncode payload.length).length + payload.length)
      (content ++ 0x01 :: sig) = content by
    rw [List.take_append_of_le_length (by omega)]
    exact List.take_of_length_le (by omega)]
  rw [show (content ++ 0x01 :: sig).getD
      (16 + (uvarintEncode payload.length).length + payload.length) 0 = 0x01 by
    rw [List.getD_eq_getElem?_getD, List.getElem?_append_right (by omega)]
    rw [show 16 + (uvarintEncode payload.length).length + payload.length -
      content.length = 0 from by omega]
    simp]
  rw [if_neg (show ¬ (content ++ 0x01 :: sig).length ≤
      16 + (uvarintEncode payload.length).length + payload.length + 1 by
    simp only [List.length_append, List.length_cons]
    omega)]
  rw [if_neg (show ¬ (0x01 : Nat) ≠ 0x01 from not_not_intro rfl)]
  rw [show (content ++ 0x01 :: sig).drop
      (16 + (uvarintEncode payload.length).length + payload.length + 1) = sig by
    rw [show 16 + (uvarintEncode payload.length).length + payload.length + 1 =
      content.length + 1 from by omega, ← List.drop_drop, List.drop_left]
    rfl]
  rw [if_neg (not_not_intro hsig)]
  cases hver : verify content sig <;> simp [hver, throw, throwThe, MonadExceptOf.throw]

theorem ebind_pure {α β : Type} (a : α) (f : α → Except Err β) :
    Except.bind (pure a) f = f a := rfl

theorem resolveEpochMs_some (tps : List Nat) (e : Int) :
    resolveEpochMs tps (some e) = Except.ok e := rfl

theorem resolveEpochMs_none (tps : List Nat) :
    resolveEpochMs tps none = epochMsFromTPSString tps := rfl

theorem encodeBinary_eq (deflateRaw : List Nat → List Nat) (nonceBuf tps : List Nat)
    (optC : Option Bool) (optE : Option Int) (e : Int)
    (hres : optE = some e ∨ (optE = none ∧ epochMsFromTPSString tps = .ok e))
    (h0 : 0 ≤ e) (h1 : e ≤ 0xffffffffffff) :
    encodeBinary deflateRaw nonceBuf tps optC optE =
      .ok (binLayout (if optC.getD false then 0x01 else 0x00) e.toNat nonceBuf
        (if optC.getD false then deflateRaw (utf8Encode tps) else utf8Encode tps)) := by
  unfold encodeBinary
  have hrw : resolveEpochMs tps optE = Except.ok e := by
    rcases hres with rfl | ⟨rfl, hder⟩
    · rfl
    · rw [resolveEpochMs_none, hder]
  simp only [Bind.bind]
  rw [hrw, ebind_ok, if_neg (by omega), if_neg (by omega)]
  rfl

theorem encodeBinary_neg (deflateRaw : List Nat → List Nat) (nonceBuf tps : List Nat)
    (optC : Option Bool) (e : Int) (h : e < 0) :
    encodeBinary deflateRaw nonceBuf tps optC (some e) =
      .error Err.epochNotNonNegInt := by
  unfold encodeBinary
  simp only [Bind.bind]
  rw [resolveEpochMs_some, ebind_ok, if_pos h]
  rfl

theorem encodeBinary_over (deflateRaw : List Nat → List Nat) (nonceBuf tps : List Nat)
    (optC : Option Bool) (e : Int) (h0 : ¬ e < 0) (h : e > 0xffffffffffff) :
    encodeBinary deflateRaw nonceBuf tps optC (some e) =
      .error Err.epochExceeds48 := by
  unfold encodeBinary
  simp only [Bind.bind]
  rw [resolveEpochMs_some, ebind_ok, if_neg h0, if_pos h]
  rfl

theorem sealToken_eq (sign deflateRaw : List Nat → List Nat) (nonceBuf tps : List Nat)
    (optC : Option Bool) (optE : Option Int) (e : Int)
    (hres : optE = some e ∨ (optE = none ∧ epochMsFromTPSString tps = .ok e))
    (h0 : 0 ≤ e) (h1 : e ≤ 0xffffffffffff) :
    sealToken sign deflateRaw nonceBuf tps optC optE =
      .ok (sealContent deflateRaw nonceBuf tps (optC.getD false) e.toNat ++
        0x01 :: sign (sealContent deflateRaw nonceBuf tps (optC.getD false) e.toNat)) := by
  unfold sealToken
  have hrw : resolveEpochMs tps optE = Except.ok e := by
    rcases hres with rfl | ⟨rfl, hder⟩
    · rfl
    · rw [resolveEpochMs_none, hder]
  simp only [Bind.bind]
  rw [hrw, ebind_ok, if_neg (by omega)]
  rfl

theorem isPrefixOf_append_self (l t : List Nat) : l.isPrefixOf (l ++ t) = true := by
  induction l with
  | nil => simp
  | cons a as ih =>
    simp only [List.cons_append, List.isPrefixOf, beq_self_eq_true, Bool.true_and]
    exact ih

theorem dropWhile_eq_self_of_not {l : List Nat} (h : ∀ c ∈ l, isJsWs c = false) :
    l.dropWhile isJsWs = l := by
  cases l with
  | nil => rfl
  | cons a as =>
    rw [List.dropWhile_cons, if_neg (by rw [h a (by simp)]; simp)]

theorem jsTrim_no_ws {l : List Nat} (h : ∀ c ∈ l, isJsWs c = false) : jsTrim l = l := by
  unfold jsTrim
  rw [dropWhile_eq_self_of_not h,
    dropWhile_eq_self_of_not (fun c hc => h c (List.mem_reverse.mp hc)),
    List.reverse_reverse]

theorem isJsWs_false_of_range {c : Nat} (h1 : 33 ≤ c) (h2 : c ≤ 126) :
    isJsWs c = false := by
  simp only [isJsWs, Bool.or_eq_false_iff, Bool.and_eq_false_iff, beq_eq_false_iff_ne,
    ne_eq, decide_eq_false_iff_not, not_le]
  omega

theorem b64Chr_no_ws (v : Nat) : isJsWs (b64Chr v) = false :=
  isJsWs_false_of_range (by have := b64Chr_range v; omega)
    (by have := b64Chr_range v; omega)

theorem base64UrlEncode_no_ws :
    ∀ l : List Nat, ∀ c ∈ base64UrlEncode l, isJsWs c = false := by
  intro l
  induction l using base64UrlEncode.induct with
  | case1 =>
    intro c hc
    simp [base64UrlEncode] at hc
  | case2 a =>
    intro c hc
    simp only [base64UrlEncode, List.mem_cons, List.not_mem_nil, or_false] at hc
    rcases hc with rfl | rfl <;> exact b64Chr_no_ws _
  | case3 a b =>
    intro c hc
    simp only [base64UrlEncode, List.mem_cons, List.not_mem_nil, or_false] at hc
    rcases hc with rfl | rfl | rfl <;> exact b64Chr_no_ws _
  | case4 a b d rest ih =>
    intro c hc
    simp only [base64UrlEncode, List.mem_cons] at hc
    rcases hc with rfl | rfl | rfl | rfl | hmem
    · exact b64Chr_no_ws _
    · exact b64Chr_no_ws _
    · exact b64Chr_no_ws _
    · exact b64Chr_no_ws _
    · exact ih c hmem

theorem utf8EncodeChar_lt {c : Nat} (hc : c < 0x110000) :
    ∀ b ∈ utf8EncodeChar c, b < 256 := by
  intro b hb
  unfold utf8EncodeChar at hb
  split at hb
  · simp at hb
    omega
  · split at hb
    · simp at hb
      rcases hb with rfl | rfl <;> omega
    · split at hb
      · simp at hb
        rcases hb with rfl | rfl | rfl <;> omega
      · simp at hb
        rcases hb with rfl | rfl | rfl | rfl <;> omega

theorem utf8Encode_lt {s : List Nat} (h : ∀ c ∈ s, validScalar c = true) :
    ∀ b ∈ utf8Encode s, b < 256 := by
  induction s with
  | nil =>
    intro b hb
    simp [utf8Encode] at hb
  | cons c rest ih =>
    intro b hb
    have henc : utf8Encode (c :: rest) = utf8EncodeChar c ++ utf8Encode rest := by
      simp [utf8Encode]
    rw [henc, List.mem_append] at hb
    rcases hb with hb | hb
    · have hv := h c (by simp)
      simp only [validScalar, Bool.and_eq_true, decide_eq_true_eq] at hv
      exact utf8EncodeChar_lt hv.1 b hb
    · exact ih (fun x hx => h x (by simp [hx])) b hb

theorem uvarintEncode_elem_lt (n : Nat) : ∀ b ∈ uvarintEncode n, b < 256 := by
  intro b hb
  exact uvarintEncodeGo_elem_lt 5 (n % 2 ^ 32) (by omega) b hb

theorem binLayout_elem_lt {flags e48 : Nat} {nb pl : List Nat} (hf : flags < 256)
    (hnb : ∀ b ∈ nb, b < 256) (hpl : ∀ b ∈ pl, b < 256) :
    ∀ b ∈ binLayout flags e48 nb pl, b < 256 := by
  intro b hb
  simp only [binLayout, MAGIC, VER, writeU48, List.cons_append, List.nil_append,
    List.mem_cons, List.mem_append] at hb
  rcases hb with rfl | rfl | rfl | rfl | rfl | rfl | rfl | rfl | rfl | rfl | rfl | rfl |
    ((hb | hb) | hb)
  · omega
  · omega
  · omega
  · omega
  · omega
  · exact hf
  · omega
  · omega
  · omega
  · omega
  · omega
  · omega
  · exact hnb b hb
  · exact uvarintEncode_elem_lt pl.length b hb
  · exact hpl b hb

theorem uvarintDecode_binLayout_append (flags2 e48 n0 n1 n2 n3 : Nat)
    (payload tail : List Nat) (hpl : payload.length < 2 ^ 32) :
    uvarintDecode (binLayout flags2 e48 [n0, n1, n2, n3] payload ++ tail) 16 =
      .ok (payload.length, (uvarintEncode payload.length).length) := by
  have h := uvarintDecode_encode_append
    [0x54, 0x50, 0x55, 0x37, 0x01, flags2, e48 / 2 ^ 40 % 256, e48 / 2 ^ 32 % 256,
     e48 / 2 ^ 24 % 256, e48 / 2 ^ 16 % 256, e48 / 2 ^ 8 % 256, e48 % 256,
     n0, n1, n2, n3] (payload ++ tail) payload.length hpl
  have hshape : ([0x54, 0x50, 0x55, 0x37, 0x01, flags2, e48 / 2 ^ 40 % 256,
      e48 / 2 ^ 32 % 256, e48 / 2 ^ 24 % 256, e48 / 2 ^ 16 % 256, e48 / 2 ^ 8 % 256,
      e48 % 256, n0, n1, n2, n3] : List Nat) ++
      (uvarintEncode payload.length ++ (payload ++ tail)) =
      binLayout flags2 e48 [n0, n1, n2, n3] payload ++ tail := by
    simp [binLayout, MAGIC, VER, writeU48]
  rw [hshape] at h
  simpa using h

theorem binLayout_length (flags2 e48 n0 n1 n2 n3 : Nat) (payload : List Nat) :
    (binLayout flags2 e48 [n0, n1, n2, n3] payload).length =
      16 + (uvarintEncode payload.length).length + payload.length := by
  simp [binLayout, MAGIC, VER, writeU48]
  omega

theorem verifyAndDecode_structured (verify : List Nat → List Nat → Bool)
    (inflateRaw : List Nat → List Nat) (C sig : List Nat) (L k : Nat)
    (hmag : C.getD 0 0 = 0x54 ∧ C.getD 1 0 = 0x50 ∧ C.getD 2 0 = 0x55 ∧
      C.getD 3 0 = 0x37)
    (hseal : C.getD 5 0 &&& 0x02 ≠ 0)
    (huv : uvarintDecode (C ++ 0x01 :: sig) 16 = .ok (L, k))
    (hlenC : C.length = 16 + k + L)
    (hsig : sig.length = 64) :
    verifyAndDecode verify inflateRaw (C ++ 0x01 :: sig) =
      if verify C sig then decodeBinary inflateRaw C
      else .error Err.signatureInvalid := by
  have hg : ∀ i, i < C.length → (C ++ 0x01 :: sig).getD i 0 = C.getD i 0 := by
    intro i hi
    rw [List.getD_eq_getElem?_getD, List.getD_eq_getElem?_getD,
      List.getElem?_append_left hi]
  have hk1 : 0 < k := uvarintDecodeGo_bytesRead_gt 11 huv
  unfold verifyAndDecode
  rw [if_neg (show ¬ (C ++ 0x01 :: sig).length < 18 by
    simp only [List.length_append, List.length_cons]
    omega)]
  rw [if_neg (not_not_intro ⟨by rw [hg 0 (by omega)]; exact hmag.1,
    by rw [hg 1 (by omega)]; exact hmag.2.1,
    by rw [hg 2 (by omega)]; exact hmag.2.2.1,
    by rw [hg 3 (by omega)]; exact hmag.2.2.2⟩)]
  rw [hg 5 (by omega), if_neg (show ¬ C.getD 5 0 &&& 2 = 0 from hseal), huv]
  simp only [Bind.bind, ebind_ok]
  rw [if_neg (show ¬ 16 + k + L > (C ++ 0x01 :: sig).length by
    simp only [List.length_append, List.length_cons]
    omega)]
  rw [show List.take (16 + k + L) (C ++ 0x01 :: sig) = C by
    rw [List.take_append_of_le_length (by omega)]
    exact List.take_of_length_le (by omega)]
  rw [show (C ++ 0x01 :: sig).getD (16 + k + L) 0 = 0x01 by
    rw [List.getD_eq_getElem?_getD, List.getElem?_append_right (by omega)]
    rw [show 16 + k + L - C.length = 0 from by omega]
    simp]
  rw [if_neg (show ¬ (C ++ 0x01 :: sig).length ≤ 16 + k + L + 1 by
    simp only [List.length_append, List.length_cons]
    omega)]
  rw [if_neg (show ¬ (0x01 : Nat) ≠ 0x01 from not_not_intro rfl)]
  rw [show (C ++ 0x01 :: sig).drop (16 + k + L + 1) = sig by
    rw [show 16 + k + L + 1 = C.length + 1 from by omega, ← List.drop_drop,
      List.drop_left]
    rfl]
  rw [if_neg (not_not_intro hsig)]
  cases hver : verify C sig <;> simp [hver, throw, throwThe, MonadExceptOf.throw]

theorem flipByte_append_left {p : Nat} {C t : List Nat} (h : p < C.length) :
    flipByte p (C ++ t) = flipByte p C ++ t := by
  unfold flipByte
  rw [List.getD_eq_getElem?_getD, List.getElem?_append_left h,
    List.set_append_left _ _ h, List.getD_eq_getElem?_getD]

theorem flipByte_length (p : Nat) (l : List Nat) :
    (flipByte p l).length = l.length := by
  unfold flipByte
  exact List.length_set l p _

theorem flipByte_getD_ne {p i : Nat} {l : List Nat} (h : i ≠ p) :
    (flipByte p l).getD i 0 = l.getD i 0 := by
  unfold flipByte
  simp only [List.getD_eq_getElem?_getD]
  rw [List.getElem?_set_ne (fun hc => h hc.symm)]

theorem length_eq_four {l : List Nat} (h : l.length = 4) :
    ∃ a b c d, l = [a, b, c, d] := by
  match l with
  | [a, b, c, d] => exact ⟨a, b, c, d, rfl⟩
  | [] => simp at h
  | [_] => simp at h
  | [_, _] => simp at h
  | [_, _, _] => simp at h
  | _ :: _ :: _ :: _ :: _ :: _ =>
    simp only [List.length_cons] at h
    omega

theorem prefix_chars_no_ws : ∀ c ∈ ( PREFIX), isJsWs c = false := by decide

theorem decodeBinaryB64_of_bytes (inflateRaw : List Nat → List Nat)
    (bytes : List Nat) (hwf : ∀ b ∈ bytes, b < 256) :
    decodeBinaryB64 inflateRaw ( PREFIX ++ base64UrlEncode bytes) =
      decodeBinary inflateRaw bytes := by
  unfold decodeBinaryB64
  have hnws : ∀ c ∈ ( PREFIX) ++ base64UrlEncode bytes, isJsWs c = false := by
    intro c hc
    rcases List.mem_append.mp hc with hc | hc
    · exact prefix_chars_no_ws c hc
    · exact base64UrlEncode_no_ws bytes c hc
  rw [jsTrim_no_ws hnws, show ( PREFIX).isPrefixOf ( PREFIX ++ base64UrlEncode bytes) =
    true from isPrefixOf_append_self _ _]
  rw [if_neg (by simp), List.drop_left, base64_roundtrip bytes hwf]

theorem leb128Go_eq_encodeGo :
    ∀ f1 f2 x, x < 2 ^ (7 * f1 + 7) → x < 2 ^ (7 * f2 + 7) →
      leb128Go f1 x = uvarintEncodeGo f2 x := by
  intro f1
  induction f1 with
  | zero =>
    intro f2 x h1 h2
    cases f2 with
    | zero => rfl
    | succ g =>
      simp only [leb128Go, uvarintEncodeGo]
      rw [if_neg (show ¬ x ≥ 0x80 by omega)]
  | succ f ih =>
    intro f2 x h1 h2
    by_cases hx : x < 0x80
    · cases f2 with
      | zero =>
        simp only [leb128Go, uvarintEncodeGo]
        rw [if_pos hx]
      | succ g =>
        simp only [leb128Go, uvarintEncodeGo]
        rw [if_pos hx, if_neg (by omega)]
    · cases f2 with
      | zero =>
        exfalso
        omega
      | succ g =>
        simp only [leb128Go, uvarintEncodeGo]
        rw [if_neg hx, if_pos (by omega)]
        congr 1
        refine ih g (x / 0x80) ?_ ?_
        · rw [Nat.div_lt_iff_lt_mul (by norm_num)]
          calc x < 2 ^ (7 * (f + 1) + 7) := h1
            _ = 2 ^ (7 * f + 7) * 0x80 := by
              rw [show (0x80 : Nat) = 2 ^ 7 by norm_num, ← Nat.pow_add,
                show 7 * f + 7 + 7 = 7 * (f + 1) + 7 from by omega]
        · rw [Nat.div_lt_iff_lt_mul (by norm_num)]
          calc x < 2 ^ (7 * (g + 1) + 7) := h2
            _ = 2 ^ (7 * g + 7) * 0x80 := by
              rw [show (0x80 : Nat) = 2 ^ 7 by norm_num, ← Nat.pow_add,
                show 7 * g + 7 + 7 = 7 * (g + 1) + 7 from by omega]

theorem leb128_eq_uvarintEncode {n : Nat} (hn : n < 2 ^ 32) :
    leb128 n = uvarintEncode n := by
  unfold leb128 uvarintEncode
  rw [Nat.mod_eq_of_lt hn]
  exact leb128Go_eq_encodeGo 10 5 n (by omega) (by omega)

/-! Claim theorems. -/

/-- Claim C4 (counterexample): the five-byte sequence 80 80 80 80 10 is the
standard LEB128 encoding of 2 to the 32nd, yet `uvarintDecode` accepts it and
returns the value 0 instead of failing, contradicting the claim that every
encoding of a value of at least 2 to the 32nd is rejected. -/
theorem C4_varint_cex :
    leb128 (2 ^ 32) = [0x80, 0x80, 0x80, 0x80, 0x10] ∧
    uvarintDecode (leb128 (2 ^ 32)) 0 = .ok (0, 5) ∧
    (0 : Nat) < 2 ^ 32 := by
  refine ⟨by decide, by decide, by norm_num⟩

/-- Claim C4 (amended): `uvarintDecode` reads at most ten
continuation-terminated groups, raising the too-long error past that, and its
only high-bit guard fires for a terminal group above 1 at the tenth position
(a 64-bit-style cap, raising the too-large error); encodings of values below
2 to the 32nd decode exactly.  But each group is accumulated as
`x |= (b & 0x7f) << s` under JavaScript 32-bit semantics — the shift count
`s` is itself reduced mod 32 and the result truncated to 32 bits — so
encodings of larger values within those caps are accepted with a mangled
value instead of failing: the encoding of 2 to the 32nd (final group at
shift 32, reduced to 0) decodes to 0, that of 2 to the 35th (shift 35,
reduced to 3) decodes to 8, and that of 2 to the 60th (shift 56, reduced
to 24, group bits 16) decodes to 2 to the 28th. -/
theorem C4_varint (n : Nat) (hn : n < 2 ^ 32) :
    uvarintDecode (leb128 n) 0 = .ok (n, (leb128 n).length) ∧
    uvarintDecode (leb128 (2 ^ 32)) 0 = .ok (0, 5) ∧
    uvarintDecode (leb128 (2 ^ 35)) 0 = .ok (8, 6) ∧
    uvarintDecode (leb128 (2 ^ 60)) 0 = .ok (2 ^ 28, 9) ∧
    uvarintDecode (List.replicate 11 0x80) 0 = .error Err.uvarintTooLong ∧
    uvarintDecode (List.replicate 9 0x80 ++ [0x02]) 0 = .error Err.uvarintTooLarge := by
  refine ⟨?_, by decide, by decide, by decide, by decide, by decide⟩
  rw [leb128_eq_uvarintEncode hn]
  have h := uvarintDecode_encode_append [] [] n hn
  simpa using h

/-- Claim C4 (witness). -/
theorem C4_varint_witness :
    uvarintDecode (leb128 300) 0 = .ok (300, (leb128 300).length) ∧
    uvarintDecode (leb128 (2 ^ 32)) 0 = .ok (0, 5) ∧
    uvarintDecode (leb128 (2 ^ 35)) 0 = .ok (8, 6) ∧
    uvarintDecode (leb128 (2 ^ 60)) 0 = .ok (2 ^ 28, 9) ∧
    uvarintDecode (List.replicate 11 0x80) 0 = .error Err.uvarintTooLong ∧
    uvarintDecode (List.replicate 9 0x80 ++ [0x02]) 0 = .error Err.uvarintTooLarge :=
  C4_varint 300 (by norm_num)

/-- Claim C5: with an explicit `epochMs` option, an integer value in the
48-bit range is encoded and decodes back to exactly that value, while a
negative value or a value above the range (in particular 2 to the 48th) makes
`encodeBinary` fail with the corresponding range error and produce no
output. -/
theorem C5_epoch (tps nonceBuf : List Nat) (deflateRaw inflateRaw : List Nat → List Nat)
    (e : Int) (hnonce : nonceBuf.length = 4)
    (hplen : (utf8Encode tps).length < 2 ^ 32) :
    ((0 ≤ e ∧ e ≤ 2 ^ 48 - 1) →
      ∃ bytes r, encodeBinary deflateRaw nonceBuf tps none (some e) = .ok bytes ∧
        decodeBinary inflateRaw bytes = .ok r ∧ (r.epochMs : Int) = e) ∧
    (e < 0 →
      encodeBinary deflateRaw nonceBuf tps none (some e) = .error Err.epochNotNonNegInt) ∧
    (2 ^ 48 - 1 < e →
      encodeBinary deflateRaw nonceBuf tps none (some e) = .error Err.epochExceeds48) ∧
    (e = 2 ^ 48 →
      encodeBinary deflateRaw nonceBuf tps none (some e) = .error Err.epochExceeds48) := by
  obtain ⟨n0, n1, n2, n3, rfl⟩ := length_eq_four hnonce
  refine ⟨?_, ?_, ?_, ?_⟩
  · rintro ⟨h0, h1⟩
    have henc := encodeBinary_eq deflateRaw [n0, n1, n2, n3] tps none (some e) e
      (Or.inl rfl) h0 (by omega)
    have hdec := decodeBinary_binLayout inflateRaw 0x00 e.toNat n0 n1 n2 n3
      (utf8Encode tps) (by omega) hplen
    refine ⟨_, _, henc, hdec, ?_⟩
    simp only []
    omega
  · intro h
    exact encodeBinary_neg deflateRaw [n0, n1, n2, n3] tps none e h
  · intro h
    exact encodeBinary_over deflateRaw [n0, n1, n2, n3] tps none e (by omega) (by omega)
  · rintro rfl
    exact encodeBinary_over deflateRaw [n0, n1, n2, n3] tps none (2 ^ 48) (by norm_num)
      (by norm_num)

/-- Claim C5 (witness). -/
theorem C5_epoch_witness :
    ((0 ≤ (1700000000000 : Int) ∧ (1700000000000 : Int) ≤ 2 ^ 48 - 1) →
      ∃ bytes r, encodeBinary (fun d => d) [1, 2, 3, 4] (str "hi") none
          (some 1700000000000) = .ok bytes ∧
        decodeBinary (fun d => d) bytes = .ok r ∧
        (r.epochMs : Int) = 1700000000000) ∧
    ((1700000000000 : Int) < 0 →
      encodeBinary (fun d => d) [1, 2, 3, 4] (str "hi") none (some 1700000000000) =
        .error Err.epochNotNonNegInt) ∧
    (2 ^ 48 - 1 < (1700000000000 : Int) →
      encodeBinary (fun d => d) [1, 2, 3, 4] (str "hi") none (some 1700000000000) =
        .error Err.epochExceeds48) ∧
    ((1700000000000 : Int) = 2 ^ 48 →
      encodeBinary (fun d => d) [1, 2, 3, 4] (str "hi") none (some 1700000000000) =
        .error Err.epochExceeds48) :=
  C5_epoch (str "hi") [1, 2, 3, 4] (fun d => d) (fun d => d) 1700000000000
    (by decide) (by decide)

/-- Claim C7 (counterexample): a leading space leaves the raw string outside
the prefix-plus-charset shape of the claim, yet `validateBinaryB64` accepts
it, because the implementation trims before testing the regex. -/
theorem C7_validate_cex :
    validateBinaryB64 (32 :: str "tpsuid7rb_AAAA") = true ∧
    specShapeB64 (32 :: str "tpsuid7rb_AAAA") = false := by
  refine ⟨by decide, by decide⟩

/-- Claim C7 (amended): `validateBinaryB64` returns true exactly when the
whitespace-trimmed input matches the fixed prefix followed by one or more
base64url characters, and it is non-authoritative: a shape-valid identifier
exists whose bytes do not decode. -/
theorem C7_validate (id : List Nat) (inflateRaw : List Nat → List Nat) :
    (validateBinaryB64 id = specShapeB64 (jsTrim id)) ∧
    validateBinaryB64 (str "tpsuid7rb_AAAA") = true ∧
    decodeBinaryB64 inflateRaw (str "tpsuid7rb_AAAA") = .error Err.tooShort := by
  refine ⟨rfl, by decide, rfl⟩

/-- Claim C10: surrounding whitespace is trimmed by both `decodeBinaryB64`
and `validateBinaryB64` before the prefix or pattern test, so a
whitespace-padded identifier behaves exactly like the bare one. -/
theorem C10_trim (inflateRaw : List Nat → List Nat) (w1 w2 id : List Nat)
    (h1 : ∀ c ∈ w1, isJsWs c = true) (h2 : ∀ c ∈ w2, isJsWs c = true) :
    decodeBinaryB64 inflateRaw (w1 ++ id ++ w2) = decodeBinaryB64 inflateRaw id ∧
    validateBinaryB64 (w1 ++ id ++ w2) = validateBinaryB64 id := by
  constructor
  · unfold decodeBinaryB64
    rw [jsTrim_append_ws w1 w2 id h1 h2]
  · unfold validateBinaryB64
    rw [jsTrim_append_ws w1 w2 id h1 h2]

/-- Claim C10 (witness). -/
theorem C10_trim_witness :
    decodeBinaryB64 (fun d => d) ([32] ++ str "tpsuid7rb_AAAA" ++ [9, 10]) =
      decodeBinaryB64 (fun d => d) (str "tpsuid7rb_AAAA") ∧
    validateBinaryB64 ([32] ++ str "tpsuid7rb_AAAA" ++ [9, 10]) =
      validateBinaryB64 (str "tpsuid7rb_AAAA") :=
  C10_trim (fun d => d) [32] [9, 10] (str "tpsuid7rb_AAAA") (by decide) (by decide)

/-- Claim C1: for every payload string, both compression flags and any valid
epoch (explicitly supplied, or derived from the string when the option is
omitted), decoding the encoded token reproduces the string exactly and the
compressed field equals the flag passed in.  The zlib adapter is an injected
collaborator; its round trip on this payload is the standard deflate
guarantee. -/
theorem C1_roundtrip (tps nonceBuf : List Nat) (compress : Bool) (optE : Option Int)
    (e : Int) (deflateRaw inflateRaw : List Nat → List Nat)
    (hvalid : ∀ c ∈ tps, validScalar c = true)
    (hnonce : nonceBuf.length = 4)
    (hzlib : inflateRaw (deflateRaw (utf8Encode tps)) = utf8Encode tps)
    (hepoch : optE = some e ∨ (optE = none ∧ epochMsFromTPSString tps = .ok e))
    (he0 : 0 ≤ e) (he1 : e ≤ 2 ^ 48 - 1)
    (hplen : (if compress then deflateRaw (utf8Encode tps)
      else utf8Encode tps).length < 2 ^ 32) :
    ∃ bytes r, encodeBinary deflateRaw nonceBuf tps (some compress) optE = .ok bytes ∧
      decodeBinary inflateRaw bytes = .ok r ∧ r.tps = tps ∧ r.compressed = compress := by
  obtain ⟨n0, n1, n2, n3, rfl⟩ := length_eq_four hnonce
  have henc := encodeBinary_eq deflateRaw [n0, n1, n2, n3] tps (some compress) optE e
    hepoch he0 (by omega)
  have hdec := decodeBinary_binLayout inflateRaw
    (if (some compress).getD false then 0x01 else 0x00) e.toNat n0 n1 n2 n3
    (if (some compress).getD false then deflateRaw (utf8Encode tps)
      else utf8Encode tps)
    (by omega) (by simpa using hplen)
  refine ⟨_, _, henc, hdec, ?_, ?_⟩
  · cases compress
    · simpa using utf8_roundtrip tps hvalid
    · simp only [Option.getD_some, if_pos rfl]
      simpa [hzlib] using utf8_roundtrip tps hvalid
  · cases compress <;> rfl

/-- Claim C1 (witness). -/
theorem C1_roundtrip_witness :
    ∃ bytes r, encodeBinary (fun d => d) [1, 2, 3, 4] (str "hi") (some false)
        (some 1700000000000) = .ok bytes ∧
      decodeBinary (fun d => d) bytes = .ok r ∧ r.tps = str "hi" ∧
      r.compressed = false :=
  C1_roundtrip (str "hi") [1, 2, 3, 4] false (some 1700000000000) 1700000000000
    (fun d => d) (fun d => d) (by decide) (by decide) rfl (Or.inl rfl)
    (by norm_num) (by norm_num) (by decide)

/-- Claim C9: `decodeBinary` never requires the buffer to end at the declared
payload boundary: appending any extra bytes to a token that decodes leaves
the result unchanged; in particular a sealed token, which carries the seal
type byte and the signature after the payload, decodes successfully through
the plain `decodeBinary` path, which performs no signature check. -/
theorem C9_decode_extension (inflateRaw : List Nat → List Nat) (b x : List Nat)
    (r : DecodeResult) (sign deflateRaw : List Nat → List Nat)
    (nonceBuf tps : List Nat) (compress : Bool) (e : Int)
    (hdec : decodeBinary inflateRaw b = .ok r) (hx : x ≠ [])
    (hvalid : ∀ c ∈ tps, validScalar c = true)
    (hnonce : nonceBuf.length = 4)
    (hzlib : inflateRaw (deflateRaw (utf8Encode tps)) = utf8Encode tps)
    (he0 : 0 ≤ e) (he1 : e ≤ 2 ^ 48 - 1)
    (hplen : (if compress then deflateRaw (utf8Encode tps)
      else utf8Encode tps).length < 2 ^ 32) :
    decodeBinary inflateRaw (b ++ x) = .ok r ∧
    ∃ out r2, sealToken sign deflateRaw nonceBuf tps (some compress) (some e) =
        .ok out ∧
      decodeBinary inflateRaw out = .ok r2 ∧ r2.tps = tps := by
  refine ⟨decodeBinary_append hdec, ?_⟩
  obtain ⟨n0, n1, n2, n3, rfl⟩ := length_eq_four hnonce
  have hseal := sealToken_eq sign deflateRaw [n0, n1, n2, n3] tps (some compress)
    (some e) e (Or.inl rfl) he0 (by omega)
  have hdecC := decodeBinary_binLayout inflateRaw
    ((if (some compress).getD false then 0x01 else 0x00) ||| 0x02) e.toNat n0 n1 n2 n3
    (if (some compress).getD false then deflateRaw (utf8Encode tps)
      else utf8Encode tps)
    (by omega) (by simpa using hplen)
  have hdecSealed := @decodeBinary_append inflateRaw _
    (0x01 :: sign (sealContent deflateRaw [n0, n1, n2, n3] tps
      ((some compress).getD false) e.toNat)) _ hdecC
  refine ⟨_, _, hseal, hdecSealed, ?_⟩
  cases compress
  · simpa using utf8_roundtrip tps hvalid
  · simp only [Option.getD_some, if_pos rfl]
    simpa [hzlib] using utf8_roundtrip tps hvalid

/-- Claim C9 (witness). -/
theorem C9_decode_extension_witness :
    decodeBinary (fun d => d)
        ([84, 80, 85, 55, 1, 0, 1, 139, 207, 229, 104, 0, 1, 2, 3, 4, 2, 104, 105] ++
          [0]) =
      .ok ⟨1700000000000, false, 16909060, str "hi"⟩ ∧
    ∃ out r2, sealToken (fun _ => List.replicate 64 0) (fun d => d) [1, 2, 3, 4]
        (str "hi") (some false) (some 0) = .ok out ∧
      decodeBinary (fun d => d) out = .ok r2 ∧ r2.tps = str "hi" :=
  C9_decode_extension (fun d => d)
    [84, 80, 85, 55, 1, 0, 1, 139, 207, 229, 104, 0, 1, 2, 3, 4, 2, 104, 105] [0]
    ⟨1700000000000, false, 16909060, str "hi"⟩ (fun _ => List.replicate 64 0)
    (fun d => d) [1, 2, 3, 4] (str "hi") false 0 (by decide) (by decide) (by decide)
    (by decide) rfl (by norm_num) (by norm_num) (by decide)

/-- Claim C2: sealing then verifying with a matching key pair succeeds and
returns the original string; the appended signature is computed over exactly
the content bytes from the magic through the end of the payload block (the
region up to `payloadEnd = 16 + k + L`), and those signed bytes already carry
the seal flag bit (bit 1 of the flags byte at offset 5).  The Ed25519 pair is
modelled by a signer and a verifier that accepts precisely this signer's
output. -/
theorem C2_seal_verify (tps nonceBuf : List Nat) (compress : Bool) (optE : Option Int)
    (e : Int) (sign : List Nat → List Nat) (verify : List Nat → List Nat → Bool)
    (deflateRaw inflateRaw : List Nat → List Nat)
    (hvalid : ∀ c ∈ tps, validScalar c = true)
    (hnonce : nonceBuf.length = 4)
    (hzlib : inflateRaw (deflateRaw (utf8Encode tps)) = utf8Encode tps)
    (hepoch : optE = some e ∨ (optE = none ∧ epochMsFromTPSString tps = .ok e))
    (he0 : 0 ≤ e) (he1 : e ≤ 2 ^ 48 - 1)
    (hplen : (if compress then deflateRaw (utf8Encode tps)
      else utf8Encode tps).length < 2 ^ 32)
    (hsig : ∀ m, (sign m).length = 64)
    (hcv : ∀ m, verify m (sign m) = true) :
    ∃ content r,
      sealToken sign deflateRaw nonceBuf tps (some compress) optE =
        .ok (content ++ 0x01 :: sign content) ∧
      content.getD 5 0 &&& 0x02 ≠ 0 ∧
      (∃ L k, uvarintDecode (content ++ 0x01 :: sign content) 16 = .ok (L, k) ∧
        content.length = 16 + k + L) ∧
      verifyAndDecode verify inflateRaw (content ++ 0x01 :: sign content) = .ok r ∧
      r.tps = tps := by
  obtain ⟨n0, n1, n2, n3, rfl⟩ := length_eq_four hnonce
  have hseal := sealToken_eq sign deflateRaw [n0, n1, n2, n3] tps (some compress) optE e
    hepoch he0 (by omega)
  have hbit : ((if compress then 0x01 else 0x00) ||| 0x02) &&& 0x02 ≠ 0 := by
    cases compress <;> decide
  have hC : sealContent deflateRaw [n0, n1, n2, n3] tps ((some compress).getD false)
      e.toNat =
      binLayout ((if compress then 0x01 else 0x00) ||| 0x02) e.toNat [n0, n1, n2, n3]
        (if compress then deflateRaw (utf8Encode tps) else utf8Encode tps) := rfl
  rw [hC] at hseal
  have huv := uvarintDecode_binLayout_append ((if compress then 0x01 else 0x00) ||| 0x02)
    e.toNat n0 n1 n2 n3
    (if compress then deflateRaw (utf8Encode tps) else utf8Encode tps)
    (0x01 :: sign (binLayout ((if compress then 0x01 else 0x00) ||| 0x02) e.toNat
      [n0, n1, n2, n3]
      (if compress then deflateRaw (utf8Encode tps) else utf8Encode tps))) hplen
  have hlay := verifyAndDecode_layout verify inflateRaw
    ((if compress then 0x01 else 0x00) ||| 0x02) e.toNat n0 n1 n2 n3
    (if compress then deflateRaw (utf8Encode tps) else utf8Encode tps)
    (sign (binLayout ((if compress then 0x01 else 0x00) ||| 0x02) e.toNat
      [n0, n1, n2, n3]
      (if compress then deflateRaw (utf8Encode tps) else utf8Encode tps)))
    hbit (hsig _) hplen
  rw [hcv _, if_pos rfl] at hlay
  have hdec := decodeBinary_binLayout inflateRaw
    ((if compress then 0x01 else 0x00) ||| 0x02) e.toNat n0 n1 n2 n3
    (if compress then deflateRaw (utf8Encode tps) else utf8Encode tps)
    (by omega) hplen
  refine ⟨_, _, hseal, ?_, ⟨_, _, huv, binLayout_length _ _ _ _ _ _ _⟩,
    hlay.trans hdec, ?_⟩
  · cases compress <;> exact hbit
  · cases compress
    · simpa using utf8_roundtrip tps hvalid
    · simp only [if_pos rfl]
      simpa [hzlib] using utf8_roundtrip tps hvalid

/-- Claim C2 (witness). -/
theorem C2_seal_verify_witness :
    ∃ content r,
      sealToken (fun _ => List.replicate 64 0) (fun d => d) [1, 2, 3, 4] (str "hi")
          (some false) (some 0) =
        .ok (content ++ 0x01 :: List.replicate 64 0) ∧
      content.getD 5 0 &&& 0x02 ≠ 0 ∧
      (∃ L k, uvarintDecode (content ++ 0x01 :: List.replicate 64 0) 16 =
          .ok (L, k) ∧ content.length = 16 + k + L) ∧
      verifyAndDecode (fun _ _ => true) (fun d => d)
          (content ++ 0x01 :: List.replicate 64 0) = .ok r ∧
      r.tps = str "hi" :=
  C2_seal_verify (str "hi") [1, 2, 3, 4] false (some 0) 0
    (fun _ => List.replicate 64 0) (fun _ _ => true) (fun d => d) (fun d => d)
    (by decide) (by decide) rfl (Or.inl rfl) (by norm_num) (by norm_num)
    (by decide) (fun m => by simp) (fun m => rfl)

/-- Claim C6: when the injected verifier rejects the sealed content and its
signature — the model of verifying with a public key that does not match the
signing key, including the malformed-key case where the source catches an
exception and reports failure — `verifyAndDecode` returns exactly
`Err.signatureInvalid`, the same single error it returns for rejected
(tampered) content: the branch at the verification step does not distinguish
the cause. -/
theorem C6_wrong_key (tps nonceBuf : List Nat) (compress : Bool) (e : Int)
    (sign : List Nat → List Nat) (verify : List Nat → List Nat → Bool)
    (deflateRaw inflateRaw : List Nat → List Nat)
    (hnonce : nonceBuf.length = 4)
    (he0 : 0 ≤ e) (he1 : e ≤ 2 ^ 48 - 1)
    (hplen : (if compress then deflateRaw (utf8Encode tps)
      else utf8Encode tps).length < 2 ^ 32)
    (hsig : ∀ m, (sign m).length = 64)
    (hbad : ∀ m s, verify m s = false) :
    ∃ out, sealToken sign deflateRaw nonceBuf tps (some compress) (some e) = .ok out ∧
      verifyAndDecode verify inflateRaw out = .error Err.signatureInvalid := by
  obtain ⟨n0, n1, n2, n3, rfl⟩ := length_eq_four hnonce
  have hseal := sealToken_eq sign deflateRaw [n0, n1, n2, n3] tps (some compress)
    (some e) e (Or.inl rfl) he0 (by omega)
  have hbit : ((if compress then 0x01 else 0x00) ||| 0x02) &&& 0x02 ≠ 0 := by
    cases compress <;> decide
  have hC : sealContent deflateRaw [n0, n1, n2, n3] tps ((some compress).getD false)
      e.toNat =
      binLayout ((if compress then 0x01 else 0x00) ||| 0x02) e.toNat [n0, n1, n2, n3]
        (if compress then deflateRaw (utf8Encode tps) else utf8Encode tps) := rfl
  rw [hC] at hseal
  have hlay := verifyAndDecode_layout verify inflateRaw
    ((if compress then 0x01 else 0x00) ||| 0x02) e.toNat n0 n1 n2 n3
    (if compress then deflateRaw (utf8Encode tps) else utf8Encode tps)
    (sign (binLayout ((if compress then 0x01 else 0x00) ||| 0x02) e.toNat
      [n0, n1, n2, n3]
      (if compress then deflateRaw (utf8Encode tps) else utf8Encode tps)))
    hbit (hsig _) hplen
  rw [hbad _ _] at hlay
  exact ⟨_, hseal, by simpa using hlay⟩

/-- Claim C6 (witness). -/
theorem C6_wrong_key_witness :
    ∃ out, sealToken (fun _ => List.replicate 64 0) (fun d => d) [1, 2, 3, 4]
        (str "hi") (some false) (some 0) = .ok out ∧
      verifyAndDecode (fun _ _ => false) (fun d => d) out =
        .error Err.signatureInvalid :=
  C6_wrong_key (str "hi") [1, 2, 3, 4] false 0 (fun _ => List.replicate 64 0)
    (fun _ _ => false) (fun d => d) (fun d => d) (by decide) (by norm_num)
    (by norm_num) (by decide) (fun m => by simp) (fun m s => rfl)

/-- Claim C3 (counterexample): flipping byte 0 of a sealed token — a position
inside the signed region — makes `verifyAndDecode` fail with `Err.badMagic`,
not `Err.signatureInvalid`: the magic check runs before the signature check,
so not every single-byte flip in the signed region surfaces as
SignatureInvalid. -/
theorem C3_tamper_cex :
    verifyAndDecode (fun _ s => s == List.replicate 64 0) (fun d => d)
        (flipByte 0 sealedExample) = .error Err.badMagic ∧
    Err.badMagic ≠ Err.signatureInvalid := by
  exact ⟨by decide, by decide⟩

/-- Claim C3 (amended): flipping a single byte of a sealed token at the
version byte (position 4), in the epoch or nonce fields (positions 6–15), or
anywhere inside the payload region leaves every structural guard intact, so
`verifyAndDecode` reaches the signature check and — the verifier rejecting
the tampered content, as Ed25519 does — fails with exactly
`Err.signatureInvalid`.  Flips at other signed positions (magic, flags,
length bytes) can surface as other errors first. -/
theorem C3_tamper (tps nonceBuf : List Nat) (compress : Bool) (e : Int) (p : Nat)
    (sign : List Nat → List Nat) (verify : List Nat → List Nat → Bool)
    (deflateRaw inflateRaw : List Nat → List Nat)
    (hnonce : nonceBuf.length = 4)
    (he0 : 0 ≤ e) (he1 : e ≤ 2 ^ 48 - 1)
    (hplen : (if compress then deflateRaw (utf8Encode tps)
      else utf8Encode tps).length < 2 ^ 32)
    (hsig : ∀ m, (sign m).length = 64)
    (hp : p = 4 ∨ (6 ≤ p ∧ p < 16) ∨
      (∃ L k, uvarintDecode (sealContent deflateRaw nonceBuf tps compress e.toNat)
          16 = .ok (L, k) ∧ 16 + k ≤ p ∧ p < 16 + k + L))
    (hrej : verify
        (flipByte p (sealContent deflateRaw nonceBuf tps compress e.toNat))
        (sign (sealContent deflateRaw nonceBuf tps compress e.toNat)) = false) :
    ∃ out, sealToken sign deflateRaw nonceBuf tps (some compress) (some e) =
        .ok out ∧
      p < out.length - 65 ∧
      verifyAndDecode verify inflateRaw (flipByte p out) =
        .error Err.signatureInvalid := by
  obtain ⟨n0, n1, n2, n3, rfl⟩ := length_eq_four hnonce
  have hseal := sealToken_eq sign deflateRaw [n0, n1, n2, n3] tps (some compress)
    (some e) e (Or.inl rfl) he0 (by omega)
  have hC2 : sealContent deflateRaw [n0, n1, n2, n3] tps ((some compress).getD false)
      e.toNat =
      binLayout ((if compress then 0x01 else 0x00) ||| 0x02) e.toNat [n0, n1, n2, n3]
        (if compress then deflateRaw (utf8Encode tps) else utf8Encode tps) := rfl
  have hCp : sealContent deflateRaw [n0, n1, n2, n3] tps compress e.toNat =
      binLayout ((if compress then 0x01 else 0x00) ||| 0x02) e.toNat [n0, n1, n2, n3]
        (if compress then deflateRaw (utf8Encode tps) else utf8Encode tps) := rfl
  rw [hC2] at hseal
  rw [hCp] at hrej hp
  set C := binLayout ((if compress then 0x01 else 0x00) ||| 0x02) e.toNat
    [n0, n1, n2, n3]
    (if compress then deflateRaw (utf8Encode tps) else utf8Encode tps) with hCdef
  set payload := (if compress then deflateRaw (utf8Encode tps) else utf8Encode tps)
    with hPdef
  have huvC : uvarintDecode C 16 = .ok (payload.length,
      (uvarintEncode payload.length).length) := by
    have h := uvarintDecode_binLayout_append
      ((if compress then 0x01 else 0x00) ||| 0x02) e.toNat n0 n1 n2 n3 payload []
      hplen
    rw [List.append_nil] at h
    exact h
  have hCl : C.length = 16 + (uvarintEncode payload.length).length +
      payload.length := binLayout_length _ _ _ _ _ _ _
  have hkpos : 0 < (uvarintEncode payload.length).length :=
    uvarintEncodeGo_length_pos _ _
  have hpC : p < C.length ∧ (p = 4 ∨ (6 ≤ p ∧ p < 16) ∨
      (16 + (uvarintEncode payload.length).length ≤ p ∧
        p < 16 + (uvarintEncode payload.length).length + payload.length)) := by
    rcases hp with rfl | ⟨h6, h16⟩ | ⟨L, k, huv, hk1, hk2⟩
    · exact ⟨by omega, Or.inl rfl⟩
    · exact ⟨by omega, Or.inr (Or.inl ⟨h6, h16⟩)⟩
    · rw [huvC] at huv
      obtain ⟨hL, hk⟩ : payload.length = L ∧
          (uvarintEncode payload.length).length = k := by
        have := Except.ok.inj huv
        exact ⟨congrArg Prod.fst this, congrArg Prod.snd this⟩
      exact ⟨by omega, Or.inr (Or.inr ⟨by omega, by omega⟩)⟩
  obtain ⟨hplt, hpcase⟩ := hpC
  have hflip : flipByte p (C ++ 0x01 :: sign C) = flipByte p C ++ 0x01 :: sign C :=
    flipByte_append_left hplt
  have hne : ∀ i, i < 6 → i ≠ 4 → i ≠ p := by
    intro i hi hi4
    rcases hpcase with rfl | ⟨h6, _⟩ | ⟨hk1, _⟩ <;> omega
  have huv0 : uvarintDecode (C ++ 0x01 :: sign C) 16 = .ok (payload.length,
      (uvarintEncode payload.length).length) := uvarintDecode_append huvC
  have hagree : ∀ j, 0 ≤ j → j < (uvarintEncode payload.length).length →
      (flipByte p C ++ 0x01 :: sign C).getD (16 + j) 0 =
        (C ++ 0x01 :: sign C).getD (16 + j) 0 := by
    intro j _ hj
    rw [← hflip]
    apply flipByte_getD_ne
    rcases hpcase with rfl | ⟨h6, h16⟩ | ⟨hk1, hk2⟩ <;> omega
  have hlen2 : (flipByte p C ++ 0x01 :: sign C).length =
      (C ++ 0x01 :: sign C).length := by
    simp [flipByte_length]
  have huv2 : uvarintDecode (flipByte p C ++ 0x01 :: sign C) 16 =
      .ok (payload.length, (uvarintEncode payload.length).length) :=
    uvarintDecodeGo_ext 11 hlen2 huv0 hagree
  have hmagC : C.getD 0 0 = 0x54 ∧ C.getD 1 0 = 0x50 ∧ C.getD 2 0 = 0x55 ∧
      C.getD 3 0 = 0x37 := ⟨rfl, rfl, rfl, rfl⟩
  have hflagC : C.getD 5 0 = (if compress then 0x01 else 0x00) ||| 0x02 := rfl
  have hstruct := verifyAndDecode_structured verify inflateRaw (flipByte p C)
    (sign C) payload.length (uvarintEncode payload.length).length
    ⟨by rw [flipByte_getD_ne (hne 0 (by omega) (by omega))]; exact hmagC.1,
     by rw [flipByte_getD_ne (hne 1 (by omega) (by omega))]; exact hmagC.2.1,
     by rw [flipByte_getD_ne (hne 2 (by omega) (by omega))]; exact hmagC.2.2.1,
     by rw [flipByte_getD_ne (hne 3 (by omega) (by omega))]; exact hmagC.2.2.2⟩
    (by
      rw [flipByte_getD_ne (hne 5 (by omega) (by omega)), hflagC]
      cases compress <;> decide)
    huv2
    (by rw [flipByte_length]; exact hCl)
    (hsig C)
  rw [hrej, if_neg (by simp)] at hstruct
  refine ⟨_, hseal, ?_, ?_⟩
  · have : (C ++ 0x01 :: sign C).length = C.length + 65 := by
      simp [hsig C]
    omega
  · rw [hflip]
    exact hstruct

/-- Claim C3 (amended, witness): flipping byte 20 — inside the payload — of a
concretely sealed token yields `Err.signatureInvalid` under a verifier that
accepts exactly the original content-signature pair. -/
theorem C3_tamper_witness :
    ∃ out, sealToken (fun _ => List.replicate 64 0) (fun d => d) [1, 2, 3, 4]
        tpsExample (some false) (some 0) = .ok out ∧
      20 < out.length - 65 ∧
      verifyAndDecode
          (fun m s => m == sealContent (fun d => d) [1, 2, 3, 4] tpsExample false 0 &&
            s == List.replicate 64 0)
          (fun d => d) (flipByte 20 out) = .error Err.signatureInvalid :=
  C3_tamper tpsExample [1, 2, 3, 4] false 0 20 (fun _ => List.replicate 64 0)
    (fun m s => m == sealContent (fun d => d) [1, 2, 3, 4] tpsExample false 0 &&
      s == List.replicate 64 0)
    (fun d => d) (fun d => d) (by decide) (by norm_num) (by norm_num) (by decide)
    (fun m => by simp) (Or.inr (Or.inr ⟨59, 1, by decide, by decide, by decide⟩))
    (by decide)

theorem str_valid (s : String) : ∀ c ∈ str s, validScalar c = true := by
  intro c hc
  simp only [str, List.mem_map] at hc
  obtain ⟨ch, _, rfl⟩ := hc
  have hv : ch.toNat < 0xd800 ∨ (0xdfff < ch.toNat ∧ ch.toNat < 0x110000) := ch.valid
  simp only [validScalar, Bool.and_eq_true, decide_eq_true_eq, Bool.not_eq_true',
    Bool.and_eq_false_iff, decide_eq_false_iff_not, not_le, not_lt]
  omega

theorem natToDigitsGo_mem : ∀ fuel n c, c ∈ natToDigitsGo fuel n → 48 ≤ c ∧ c ≤ 57 := by
  intro fuel
  induction fuel with
  | zero =>
    intro n c hc
    simp only [natToDigitsGo, List.mem_singleton] at hc
    subst hc
    have := Nat.mod_lt n (show 0 < 10 from by omega)
    omega
  | succ f ih =>
    intro n c hc
    simp only [natToDigitsGo] at hc
    split at hc
    · simp only [List.mem_singleton] at hc
      omega
    · rw [List.mem_append] at hc
      rcases hc with hc | hc
      · exact ih _ _ hc
      · simp only [List.mem_singleton] at hc
        subst hc
        have := Nat.mod_lt n (show 0 < 10 from by omega)
        omega

theorem natToStr_valid (n : Nat) : ∀ c ∈ natToStr n, validScalar c = true := by
  intro c hc
  have := natToDigitsGo_mem n n c hc
  simp only [validScalar, Bool.and_eq_true, decide_eq_true_eq, Bool.not_eq_true',
    Bool.and_eq_false_iff, decide_eq_false_iff_not, not_le, not_lt]
  omega

theorem intToStr_valid (i : Int) : ∀ c ∈ intToStr i, validScalar c = true := by
  intro c hc
  unfold intToStr at hc
  split at hc
  · rcases List.mem_cons.mp hc with rfl | hc
    · decide
    · exact natToStr_valid _ c hc
  · exact natToStr_valid _ c hc

theorem pad2_valid {l : List Nat} (h : ∀ c ∈ l, validScalar c = true) :
    ∀ c ∈ pad2 l, validScalar c = true := by
  intro c hc
  unfold pad2 at hc
  rcases List.mem_append.mp hc with hc | hc
  · rw [List.eq_of_mem_replicate hc]
    decide
  · exact h c hc

theorem generateTPSString_valid (date : JsDate) (o : GenOpts)
    (hla : ∀ l, o.latitude = some l → ∀ c ∈ l, validScalar c = true)
    (hlo : ∀ l, o.longitude = some l → ∀ c ∈ l, validScalar c = true)
    (hal : ∀ l, o.altitude = some l → ∀ c ∈ l, validScalar c = true) :
    ∀ c ∈ generateTPSString date o, validScalar c = true := by
  intro c hc
  simp only [generateTPSString, List.mem_append] at hc
  rcases hc with ((hc | hc) | hc) | ((((((((((((((((hc) | hc) | hc) | hc) | hc) | hc) | hc) | hc) | hc) | hc) | hc) | hc) | hc) | hc) | hc) | hc)
  · exact str_valid _ c hc
  · rcases h1 : o.latitude with _ | la <;> rcases h2 : o.longitude with _ | lo <;>
      rw [h1, h2] at hc
    · exact str_valid _ c hc
    · exact str_valid _ c hc
    · exact str_valid _ c hc
    · simp only [List.mem_append] at hc
      rcases hc with ((hc | hc) | hc) | hc
      · exact hla la h1 c hc
      · exact str_valid _ c hc
      · exact hlo lo h2 c hc
      · rcases h3 : o.altitude with _ | al <;> rw [h3] at hc
        · simp at hc
        · simp only [List.mem_append] at hc
          rcases hc with (hc | hc) | hc
          · exact str_valid _ c hc
          · exact hal al h3 c hc
          · exact str_valid _ c hc
  · exact str_valid _ c hc
  · exact str_valid _ c hc
  · exact intToStr_valid _ c hc
  · exact str_valid _ c hc
  · exact intToStr_valid _ c hc
  · exact str_valid _ c hc
  · exact intToStr_valid _ c hc
  · exact str_valid _ c hc
  · exact pad2_valid (natToStr_valid _) c hc
  · exact str_valid _ c hc
  · exact pad2_valid (natToStr_valid _) c hc
  · exact str_valid _ c hc
  · exact pad2_valid (natToStr_valid _) c hc
  · exact str_valid _ c hc
  · exact pad2_valid (natToStr_valid _) c hc
  · exact str_valid _ c hc
  · exact pad2_valid (natToStr_valid _) c hc

/-- Claim C8: `generate` pins the header epoch to the captured instant: the
produced identifier decodes to an `epochMs` exactly equal to `date.getTime`,
with no hypothesis relating `getTime` to what `epochMsFromTPSString` would
parse back from the payload text — the epoch is never re-derived from the
text.  Moreover the payload string is built only from the whole-second UTC
calendar components of the captured date: any date agreeing on those
components (regardless of its millisecond `getTime`) yields the identical
payload text, i.e. the textual time is truncated to whole seconds. -/
theorem C8_generate (date : JsDate) (o : GenOpts) (nonceBuf : List Nat)
    (deflateRaw inflateRaw : List Nat → List Nat)
    (hnonce : nonceBuf.length = 4)
    (hnb : ∀ b ∈ nonceBuf, b < 256)
    (ht0 : 0 ≤ date.getTime) (ht1 : date.getTime ≤ 2 ^ 48 - 1)
    (hla : ∀ l, o.latitude = some l → ∀ c ∈ l, validScalar c = true)
    (hlo : ∀ l, o.longitude = some l → ∀ c ∈ l, validScalar c = true)
    (hal : ∀ l, o.altitude = some l → ∀ c ∈ l, validScalar c = true)
    (hdefb : ∀ b ∈ deflateRaw (utf8Encode (generateTPSString date o)), b < 256)
    (hplen : (if o.compress.getD false then
        deflateRaw (utf8Encode (generateTPSString date o))
      else utf8Encode (generateTPSString date o)).length < 2 ^ 32) :
    (∃ id r, generate deflateRaw nonceBuf date o = .ok id ∧
      decodeBinaryB64 inflateRaw id = .ok r ∧ (r.epochMs : Int) = date.getTime) ∧
    (∀ d2 : JsDate, d2.utcFullYear = date.utcFullYear → d2.utcMonth = date.utcMonth →
      d2.utcDate = date.utcDate → d2.utcHours = date.utcHours →
      d2.utcMinutes = date.utcMinutes → d2.utcSeconds = date.utcSeconds →
      generateTPSString d2 o = generateTPSString date o) := by
  constructor
  · obtain ⟨n0, n1, n2, n3, rfl⟩ := length_eq_four hnonce
    have henc := encodeBinary_eq deflateRaw [n0, n1, n2, n3] (generateTPSString date o)
      o.compress (some date.getTime) date.getTime (Or.inl rfl) ht0 (by omega)
    have hid : generate deflateRaw [n0, n1, n2, n3] date o =
        .ok ( PREFIX ++ base64UrlEncode
          (binLayout (if o.compress.getD false then 0x01 else 0x00) date.getTime.toNat
            [n0, n1, n2, n3]
            (if o.compress.getD false then
              deflateRaw (utf8Encode (generateTPSString date o))
            else utf8Encode (generateTPSString date o)))) := by
      unfold generate encodeBinaryB64
      rw [henc]
      rfl
    have hwf : ∀ b ∈ binLayout (if o.compress.getD false then 0x01 else 0x00)
        date.getTime.toNat [n0, n1, n2, n3]
        (if o.compress.getD false then
          deflateRaw (utf8Encode (generateTPSString date o))
        else utf8Encode (generateTPSString date o)), b < 256 := by
      apply binLayout_elem_lt
      · split <;> omega
      · exact hnb
      · split
        · exact hdefb
        · exact utf8Encode_lt (generateTPSString_valid date o hla hlo hal)
    have hb64 := decodeBinaryB64_of_bytes inflateRaw _ hwf
    have hdec := decodeBinary_binLayout inflateRaw
      (if o.compress.getD false then 0x01 else 0x00) date.getTime.toNat n0 n1 n2 n3
      (if o.compress.getD false then
        deflateRaw (utf8Encode (generateTPSString date o))
      else utf8Encode (generateTPSString date o))
      (by omega) hplen
    exact ⟨_, _, hid, hb64.trans hdec, by simp; omega⟩
  · intro d2 h1 h2 h3 h4 h5 h6
    simp only [generateTPSString, h1, h2, h3, h4, h5, h6]

/-- Claim C8 (witness). -/
theorem C8_generate_witness :
    (∃ id r, generate (fun d => d) [1, 2, 3, 4]
        ⟨1767969025123, 2026, 0, 9, 14, 30, 25⟩
        ⟨some (str "31.95"), some (str "35.91"), some (str "800"), some false⟩ =
        .ok id ∧
      decodeBinaryB64 (fun d => d) id = .ok r ∧
      (r.epochMs : Int) = (1767969025123 : Int)) ∧
    (∀ d2 : JsDate, d2.utcFullYear = 2026 → d2.utcMonth = 0 → d2.utcDate = 9 →
      d2.utcHours = 14 → d2.utcMinutes = 30 → d2.utcSeconds = 25 →
      generateTPSString d2
          ⟨some (str "31.95"), some (str "35.91"), some (str "800"), some false⟩ =
        generateTPSString ⟨1767969025123, 2026, 0, 9, 14, 30, 25⟩
          ⟨some (str "31.95"), some (str "35.91"), some (str "800"), some false⟩) :=
  C8_generate ⟨1767969025123, 2026, 0, 9, 14, 30, 25⟩
    ⟨some (str "31.95"), some (str "35.91"), some (str "800"), some false⟩
    [1, 2, 3, 4] (fun d => d) (fun d => d) (by decide) (by decide) (by norm_num)
    (by norm_num)
    (fun l hl => by obtain rfl := Option.some.inj hl; decide)
    (fun l hl => by obtain rfl := Option.some.inj hl; decide)
    (fun l hl => by obtain rfl := Option.some.inj hl; decide)
    (by decide) (by decide)

end TPSUID7RB

